import Mathlib

/-!
# The byte-oriented file API of BFS (`fs.c`)

A shallow embedding of `fsFormat`, `fsRead`, `fsSeek`, `fsTell`, `fsSize` and
`fsWrite` from `src/fs.c`, together with the block-store collaborator they
call (`bfs.h` / `bio.h`, whose code is not part of the sources and is modelled
from the specification), followed by the theorems about them.

Conventions of the embedding.

* An `i32` is an `Int`; every `+` and `-` of the C code is followed by
  `wrap32`, the two's-complement wrap-around to 32 bits.  `/` and `%` are the
  truncating C operators `Int.tdiv` and `Int.tmod`.  The theorems about
  `fsWrite` are stated where the C arithmetic is defined: the block size is an
  `i32` and the end `c + n` of the write is an `i32`.
* Memory (the caller's buffers, a block buffer, a device block) is a function
  from a byte index to a byte value.
* `FATAL(code)` ends the run: an operation returns `Res.fatal code`.  The
  state a call has reached when it returns or aborts is given apart, by
  `fsSeekEnd`, `fsReadEnd` and `fsWriteEnd`.
-/

namespace BFS

/-! ## Machine integers -/

/-- The range of a signed 32-bit integer. -/
def I32 (x : Int) : Prop := -2147483648 ≤ x ∧ x ≤ 2147483647

instance (x : Int) : Decidable (I32 x) := by
  unfold I32; exact inferInstance

/-- Two's-complement wrap-around of an integer to 32 bits. -/
def wrap32 (x : Int) : Int := (x + 2147483648) % 4294967296 - 2147483648

/-- The `whence` constants of `<stdio.h>`. -/
def SEEK_SET : Int := 0
/-- See `SEEK_SET`. -/
def SEEK_CUR : Int := 1
/-- See `SEEK_SET`. -/
def SEEK_END : Int := 2

/-! ## Errors and results -/

/-- Modelled from the spec: the error codes of the header `bfs.h`, which is
not part of the sources ("a documented error code per failure kind").  Their
numeric values are unknown, so they are kept symbolic; `code ret` is
`FATAL(ret)` of `fsFormat`, which passes a collaborator's return value on. -/
inductive Err where
  | EBADCURS
  | EBADINUM
  | EBADREAD
  | EBADWHENCE
  | EDISKCREATE
  | EDISKFULL
  | ENODISK
  | EOFTFULL
  | code (ret : Int)
  deriving DecidableEq

/-- Modelled from the spec: one entry of the open-file table `g_oft`, whose
type is declared in the header that is not part of the sources.  Of an entry
("the inode number it refers to, and a cursor") `fs.c` touches the cursor only. -/
structure OFTE where
  curs : Int

/-- Modelled from the spec: the state of the block-store collaborator
(section 6 of the specification), whose implementation is not in the sources,
together with the open-file table.  Each field is what one of the
collaborator's queries answers in this state. -/
structure State where
  /-- `bfsFdToInum`: descriptor to inode number (negative: no such inode). -/
  fdToInum : Int → Int
  /-- `bfsFindOFTE`: inode number to open-file-table slot (negative: none). -/
  findOFTE : Int → Int
  /-- The open-file table, as memory indexed by slot. -/
  g_oft : Int → OFTE
  /-- `bfsGetSize`: the recorded size of each inode. -/
  size : Int → Int
  /-- `bfsFbnToDbn`: file block to device block (negative: not allocated). -/
  fbnToDbn : Int → Int → Int
  /-- The free list: the device blocks `bfsAllocBlock` hands out, in order. -/
  free : List Int
  /-- The device: block number, then byte index, to byte. -/
  disk : Int → Int → Int
  /-- What `bfsRead` returns for an inode and file block; the specification
  does not fix this value, the code treats a negative one as failure. -/
  readRet : Int → Int → Int

/-- The outcome of an operation: a value and the state it leaves, an abort
through `FATAL`, or a loop that was cut off before its condition became false. -/
inductive Res (α : Type) where
  | ok (val : α) (st : State)
  | fatal (e : Err)
  | timeout

namespace Res

/-- The code an outcome aborted with, if it aborted. -/
def aborts {α : Type} : Res α → Option Err
  | fatal e => some e
  | _ => none

/-- The value of a successful outcome. -/
def val? {α : Type} : Res α → Option α
  | ok v _ => some v
  | _ => none

/-- The state a successful outcome leaves. -/
def st? {α : Type} : Res α → Option State
  | ok _ st => some st
  | _ => none

end Res

/-! ## The collaborator -/

/-- Modelled from the spec: `bfsFdToInum`, the collaborator's
`descriptorToInode(fd) → inum`. -/
def bfsFdToInum (st : State) (fd : Int) : Int := st.fdToInum fd

/-- Modelled from the spec: `bfsFindOFTE`, the collaborator's open-file-table
lookup `findOpenEntry(inum) → entry-handle | NOT_FOUND`. -/
def bfsFindOFTE (st : State) (inum : Int) : Int := st.findOFTE inum

/-- Modelled from the spec: `bfsTell`, the cursor of the open-file entry of
`fd` (`getCursor`, "equivalently via `tell`"). -/
def bfsTell (st : State) (fd : Int) : Int :=
  (st.g_oft (bfsFindOFTE st (bfsFdToInum st fd))).curs

/-- Modelled from the spec: `bfsSetCursor`, the collaborator's
`setCursor(inum, bytes)`: it stores the cursor in the entry of `inum`. -/
def bfsSetCursor (st : State) (inum newCurs : Int) : State :=
  { st with g_oft := fun i => if i = bfsFindOFTE st inum then ⟨newCurs⟩ else st.g_oft i }

/-- Modelled from the spec: `bfsGetSize`, the collaborator's `getSize(inum)`. -/
def bfsGetSize (st : State) (inum : Int) : Int := st.size inum

/-- Modelled from the spec: `bfsSetSize`, the collaborator's
`setSize(inum, bytes)`. -/
def bfsSetSize (st : State) (inum sz : Int) : State :=
  { st with size := fun i => if i = inum then sz else st.size i }

/-- Modelled from the spec: `bfsFbnToDbn`, the collaborator's
`fileBlockToDeviceBlock(inum, fbn) → dbn | NOT_ALLOCATED`. -/
def bfsFbnToDbn (st : State) (inum fbn : Int) : Int := st.fbnToDbn inum fbn

/-- Modelled from the spec: `bfsAllocBlock`, the collaborator's
`allocateBlock(inum, fbn) → dbn | DISK_FULL`.  It takes the first block off
the free list and maps the file block to it; with an empty free list it
answers a negative number and changes nothing.  It does not touch the content
of the block it hands out. -/
def bfsAllocBlock (st : State) (inum fbn : Int) : Int × State :=
  match st.free with
  | [] => (-1, st)
  | d :: rest =>
    (d, { st with
            free := rest
            fbnToDbn := fun i f => if i = inum ∧ f = fbn then d else st.fbnToDbn i f })

/-- Modelled from the spec: `bioRead`, the raw read of device block `dbn`
into a buffer of `B` bytes. -/
def bioRead (B : Int) (st : State) (dbn : Int) (block : Int → Int) : Int → Int :=
  fun i => if 0 ≤ i ∧ i < B then st.disk dbn i else block i

/-- Modelled from the spec: `bioWrite`, the raw write of a buffer of `B` bytes
to device block `dbn`. -/
def bioWrite (B : Int) (st : State) (dbn : Int) (block : Int → Int) : State :=
  { st with disk := fun d i => if d = dbn ∧ 0 ≤ i ∧ i < B then block i else st.disk d i }

/-- Modelled from the spec: `bfsRead`, which hands the whole file block `fbn`
of `inum` to the caller's buffer ("the file block that contains the current
cursor") and returns the collaborator's count for it. -/
def bfsRead (B : Int) (st : State) (inum fbn : Int) (buf : Int → Int) :
    Int × (Int → Int) :=
  (st.readRet inum fbn,
   fun i => if 0 ≤ i ∧ i < B then st.disk (bfsFbnToDbn st inum fbn) i else buf i)

/-- The C library's `memset(block, v, len)` on a buffer. -/
def memset (block : Int → Int) (v len : Int) : Int → Int :=
  fun i => if 0 ≤ i ∧ i < len then v else block i

/-- The C library's `memcpy(dst + dOff, src + sOff, len)` on buffers. -/
def memcpy (dst : Int → Int) (dOff : Int) (src : Int → Int) (sOff len : Int) : Int → Int :=
  fun i => if dOff ≤ i ∧ i < dOff + len then src (sOff + (i - dOff)) else dst i

/-! ## `fs.c` -/

/-- `fsSize` (fs.c lines 170-173). -/
def fsSize (st : State) (fd : Int) : Int :=
  let inum := bfsFdToInum st fd
  bfsGetSize st inum

/-- `fsTell` (fs.c lines 159-161). -/
def fsTell (st : State) (fd : Int) : Int := bfsTell st fd

/-- The assignment `g_oft[ofte].curs = v` of `fsSeek`. -/
def setCurs (st : State) (ofte v : Int) : State :=
  { st with g_oft := fun i => if i = ofte then ⟨v⟩ else st.g_oft i }

/-- `fsSeek` (fs.c lines 129-152). -/
def fsSeek (st : State) (fd offset whence : Int) : Res Int :=
  if offset < 0 then .fatal .EBADCURS
  else
    let inum := bfsFdToInum st fd
    let ofte := bfsFindOFTE st inum
    if whence = SEEK_SET then
      .ok 0 (setCurs st ofte offset)
    else if whence = SEEK_CUR then
      .ok 0 (setCurs st ofte (wrap32 ((st.g_oft ofte).curs + offset)))
    else if whence = SEEK_END then
      let fileEnd := fsSize st fd
      .ok 0 (setCurs st ofte (wrap32 (fileEnd + offset)))
    else .fatal .EBADWHENCE

/-- The value `bytesToRead` of `fsRead` (fs.c line 105).  The code prints it
and makes no other use of it. -/
def bytesToRead (cursor numb fileSize : Int) : Int :=
  if wrap32 (cursor + numb) > fileSize then wrap32 (fileSize - cursor) else numb

/-- `fsRead` (fs.c lines 88-116).  The value is the returned count together
with the caller's buffer after the call. -/
def fsRead (B : Int) (st : State) (fd numb : Int) (buf : Int → Int) :
    Res (Int × (Int → Int)) :=
  let inum := bfsFdToInum st fd
  if inum < 0 then .fatal .EBADINUM
  else
    let ofte := bfsFindOFTE st inum
    if ofte < 0 then .fatal .EOFTFULL
    else
      let cursor := (st.g_oft ofte).curs
      let fileSize := bfsGetSize st inum
      if cursor ≥ fileSize then .ok (0, buf) st
      else
        let _bytesToRead := bytesToRead cursor numb fileSize
        let (bytesRead, buf1) := bfsRead B st inum (Int.tdiv cursor B) buf
        if bytesRead < 0 then .fatal .EBADREAD
        else .ok (bytesRead, buf1) (bfsSetCursor st inum (wrap32 (cursor + bytesRead)))

/-- What one pass of the loop of `fsWrite` asks of the device: the running
cursor, the file block, the offset in the block, the length, and where in the
caller's buffer the bytes come from. -/
structure Chunk where
  cursor : Int
  fbn : Int
  offset : Int
  toWrite : Int
  src : Int
  deriving DecidableEq

/-- The read-modify-write of one block and the update of the counters
(fs.c lines 212-225). -/
def fsWriteBlock (B : Int) (buf : Int → Int) (st : State)
    (bytesWritten cursor fbn offset toWrite dbn : Int) : Res (Chunk × Int × Int) :=
  let block : Int → Int := fun _ => 0
  let block := memset block 0 B
  let block := bioRead B st dbn block
  let block := memcpy block offset buf bytesWritten toWrite
  let st1 := bioWrite B st dbn block
  .ok (⟨cursor, fbn, offset, toWrite, bytesWritten⟩,
       wrap32 (bytesWritten + toWrite), wrap32 (cursor + toWrite)) st1

/-- The body of the `while` loop of `fsWrite` (fs.c lines 197-225): the chunk
it issues and the new values of `bytesWritten` and `cursor`. -/
def fsWriteBody (B inum numb : Int) (buf : Int → Int) (st : State)
    (bytesWritten cursor : Int) : Res (Chunk × Int × Int) :=
  let fbn := Int.tdiv cursor B
  let offset := Int.tmod cursor B
  let toWrite := wrap32 (B - offset)
  let toWrite :=
    if toWrite > wrap32 (numb - bytesWritten) then wrap32 (numb - bytesWritten) else toWrite
  let dbn := bfsFbnToDbn st inum fbn
  if dbn < 0 then
    let (dbn, st1) := bfsAllocBlock st inum fbn
    if dbn < 0 then .fatal .EDISKFULL
    else fsWriteBlock B buf st1 bytesWritten cursor fbn offset toWrite dbn
  else fsWriteBlock B buf st bytesWritten cursor fbn offset toWrite dbn

/-- The `while (bytesWritten < numb)` loop of `fsWrite` (fs.c lines 196-226),
run for at most `fuel` passes; the value is the final `bytesWritten` and
`cursor`. -/
def fsWriteLoop (B inum numb : Int) (buf : Int → Int) :
    Nat → State → Int → Int → Res (Int × Int)
  | 0, st, bytesWritten, cursor =>
    if bytesWritten < numb then .timeout else .ok (bytesWritten, cursor) st
  | fuel + 1, st, bytesWritten, cursor =>
    if bytesWritten < numb then
      match fsWriteBody B inum numb buf st bytesWritten cursor with
      | .ok (_, bw, cur) st1 => fsWriteLoop B inum numb buf fuel st1 bw cur
      | .fatal e => .fatal e
      | .timeout => .timeout
    else .ok (bytesWritten, cursor) st

/-- The chunks the loop of `fsWrite` issues, in order: the same loop as
`fsWriteLoop`, recording what each pass of `fsWriteBody` asked for. -/
def fsWriteChunks (B inum numb : Int) (buf : Int → Int) :
    Nat → State → Int → Int → List Chunk
  | 0, _, _, _ => []
  | fuel + 1, st, bytesWritten, cursor =>
    if bytesWritten < numb then
      match fsWriteBody B inum numb buf st bytesWritten cursor with
      | .ok (ch, bw, cur) st1 => ch :: fsWriteChunks B inum numb buf fuel st1 bw cur
      | _ => []
    else []

/-- `fsWrite` (fs.c lines 182-233).  Every pass of the loop writes at least
one byte, so `numb` passes are enough (`fsWriteLoop_ok`). -/
def fsWrite (B : Int) (st : State) (fd numb : Int) (buf : Int → Int) : Res Int :=
  let inum := bfsFdToInum st fd
  if inum < 0 then .fatal .EBADINUM
  else
    let ofte := bfsFindOFTE st inum
    if ofte < 0 then .fatal .EOFTFULL
    else
      let cursor := bfsTell st fd
      match fsWriteLoop B inum numb buf numb.toNat st 0 cursor with
      | .ok (bytesWritten, cursor) st1 =>
        let st2 := bfsSetCursor st1 inum cursor
        let st3 := if cursor > bfsGetSize st2 inum then bfsSetSize st2 inum cursor else st2
        .ok bytesWritten st3
      | .fatal e => .fatal e
      | .timeout => .timeout

/-- The chunks `fsWrite` issues for a call: none when it aborts before the
loop, else those of the loop. -/
def fsWriteTrace (B : Int) (st : State) (fd numb : Int) (buf : Int → Int) : List Chunk :=
  let inum := bfsFdToInum st fd
  if inum < 0 then []
  else
    let ofte := bfsFindOFTE st inum
    if ofte < 0 then []
    else
      let cursor := bfsTell st fd
      fsWriteChunks B inum numb buf numb.toNat st 0 cursor

/-! ## Notions the statements use -/

/-- A descriptor is valid when both resolutions `fsRead` and `fsWrite` start
with succeed: it names an inode and the inode has an open-file entry. -/
def ValidFd (st : State) (fd : Int) : Prop :=
  0 ≤ bfsFdToInum st fd ∧ 0 ≤ bfsFindOFTE st (bfsFdToInum st fd)

instance (st : State) (fd : Int) : Decidable (ValidFd st fd) := by
  unfold ValidFd; exact inferInstance

/-- Run `k` on the value and state of a successful outcome. -/
def Res.andThen {α β : Type} (r : Res α) (k : α → State → Res β) : Res β :=
  match r with
  | .ok v st => k v st
  | .fatal e => .fatal e
  | .timeout => .timeout

/-- Write `n` bytes of `b` at the cursor, seek back to `c`, read `n` bytes
into `out`. -/
def writeSeekRead (B : Int) (st : State) (fd c n : Int) (b out : Int → Int) :
    Res (Int × (Int → Int)) :=
  (fsWrite B st fd n b).andThen fun _ st1 =>
    (fsSeek st1 fd c SEEK_SET).andThen fun _ st2 =>
      fsRead B st2 fd n out

/-- The length of the chunk the loop of `fsWrite` writes when `w` bytes are
written and the cursor is `cur`: what is left of the block or what is left of
the request, whichever is less. -/
def chunkLen (B numb w cur : Int) : Int := min (B - cur % B) (numb - w)

/-- The state after the read-modify-write of device block `dbn` in
`fsWriteBlock`: `t` bytes of `buf` from `src` on go to offset `off`. -/
def rmw (B : Int) (buf : Int → Int) (st : State) (dbn off src t : Int) : State :=
  bioWrite B st dbn (memcpy (bioRead B st dbn (memset (fun _ => 0) 0 B)) off buf src t)

/-- The device block for a file block after the lookup and, where the lookup
finds none, the allocation at the head of the loop body of `fsWrite`, with the
state this leaves. -/
def ensureBlock (st : State) (inum fbn : Int) : Int × State :=
  if bfsFbnToDbn st inum fbn < 0 then bfsAllocBlock st inum fbn
  else (bfsFbnToDbn st inum fbn, st)

/-- Two states agree on everything but the block map, the free list and the
device: descriptors, open-file table, sizes and `bfsRead` counts. -/
def SameTables (st st1 : State) : Prop :=
  st1.fdToInum = st.fdToInum ∧ st1.findOFTE = st.findOFTE ∧ st1.g_oft = st.g_oft ∧
    st1.size = st.size ∧ st1.readRet = st.readRet

/-- The last three statements of `fsWrite` (fs.c lines 229-230) on the state
the loop leaves, with the final cursor. -/
def fsWriteFinish (st1 : State) (inum cursor : Int) : State :=
  let st2 := bfsSetCursor st1 inum cursor
  if cursor > bfsGetSize st2 inum then bfsSetSize st2 inum cursor else st2

/-- The chunk sequence as the specification words it: while bytes are owed,
a chunk at the running cursor of length `chunkLen`, then on from where it
ends; at most `k` chunks. -/
def chunkSeq (B numb : Int) : Nat → Int → Int → List Chunk
  | 0, _, _ => []
  | k + 1, w, cur =>
    if w < numb then
      ⟨cur, cur / B, cur % B, chunkLen B numb w cur, w⟩ ::
        chunkSeq B numb k (w + chunkLen B numb w cur) (cur + chunkLen B numb w cur)
    else []

/-- The block map of inode `inum` and the free list fit together: two file
blocks never share a device block, no block is on the free list twice, and no
block on the free list is mapped in the file. -/
def BlocksOk (st : State) (inum : Int) : Prop :=
  (∀ f g : Int, 0 ≤ st.fbnToDbn inum f → st.fbnToDbn inum f = st.fbnToDbn inum g → f = g) ∧
    st.free.Nodup ∧ ∀ d ∈ st.free, ∀ f : Int, st.fbnToDbn inum f ≠ d

/-- The buffer that holds the `n1` bytes of `b1` followed by the bytes of `b2`. -/
def bufAppend (b1 : Int → Int) (n1 : Int) (b2 : Int → Int) : Int → Int :=
  fun i => if i < n1 then b1 i else b2 (i - n1)

/-- A state with another open-file table and other sizes. -/
def setMeta (st : State) (g : Int → OFTE) (sz : Int → Int) : State :=
  { st with g_oft := g, size := sz }

/-- Change the state of a successful outcome. -/
def Res.mapSt {α : Type} (r : Res α) (f : State → State) : Res α :=
  match r with
  | .ok v st => .ok v (f st)
  | .fatal e => .fatal e
  | .timeout => .timeout

/-- Change the value of a successful outcome. -/
def Res.mapVal {α β : Type} (r : Res α) (f : α → β) : Res β :=
  match r with
  | .ok v st => .ok (f v) st
  | .fatal e => .fatal e
  | .timeout => .timeout

/-- Two calls of `fsWrite` one after the other on the same descriptor, with
the total of the two returned counts. -/
def twoWrites (B : Int) (st : State) (fd n1 : Int) (b1 : Int → Int) (n2 : Int)
    (b2 : Int → Int) : Res Int :=
  (fsWrite B st fd n1 b1).andThen fun r1 st1 =>
    (fsWrite B st1 fd n2 b2).andThen fun r2 st2 => .ok (r1 + r2) st2

/-! ## The state a call ends in, also when it aborts

`Res.fatal` carries no state.  What a call has stored by the time it returns
or aborts is given by the functions below, which follow the same statements
of `fs.c` and keep the state at every exit. -/

/-- The state in which `fsSeek` ends (fs.c lines 129-152), at a `return` and
at a `FATAL` alike. -/
def fsSeekEnd (st : State) (fd offset whence : Int) : State :=
  if offset < 0 then st
  else
    let inum := bfsFdToInum st fd
    let ofte := bfsFindOFTE st inum
    if whence = SEEK_SET then setCurs st ofte offset
    else if whence = SEEK_CUR then
      setCurs st ofte (wrap32 ((st.g_oft ofte).curs + offset))
    else if whence = SEEK_END then
      let fileEnd := fsSize st fd
      setCurs st ofte (wrap32 (fileEnd + offset))
    else st

/-- The state and the caller's buffer with which `fsRead` ends (fs.c lines
88-116), at a `return` and at a `FATAL` alike. -/
def fsReadEnd (B : Int) (st : State) (fd numb : Int) (buf : Int → Int) :
    State × (Int → Int) :=
  let inum := bfsFdToInum st fd
  if inum < 0 then (st, buf)
  else
    let ofte := bfsFindOFTE st inum
    if ofte < 0 then (st, buf)
    else
      let cursor := (st.g_oft ofte).curs
      let fileSize := bfsGetSize st inum
      if cursor ≥ fileSize then (st, buf)
      else
        let _bytesToRead := bytesToRead cursor numb fileSize
        let (bytesRead, buf1) := bfsRead B st inum (Int.tdiv cursor B) buf
        if bytesRead < 0 then (st, buf1)
        else (bfsSetCursor st inum (wrap32 (cursor + bytesRead)), buf1)

/-- The state in which one pass of the loop of `fsWrite` ends (fs.c lines
197-225), also when the allocation fails. -/
def fsWriteBodyEnd (B inum numb : Int) (buf : Int → Int) (st : State)
    (bytesWritten cursor : Int) : State :=
  let fbn := Int.tdiv cursor B
  let offset := Int.tmod cursor B
  let toWrite := wrap32 (B - offset)
  let toWrite :=
    if toWrite > wrap32 (numb - bytesWritten) then wrap32 (numb - bytesWritten) else toWrite
  let dbn := bfsFbnToDbn st inum fbn
  if dbn < 0 then
    let (dbn, st1) := bfsAllocBlock st inum fbn
    if dbn < 0 then st1
    else rmw B buf st1 dbn offset bytesWritten toWrite
  else rmw B buf st dbn offset bytesWritten toWrite

/-- The state in which the loop of `fsWrite` ends, also when a pass aborts. -/
def fsWriteLoopEnd (B inum numb : Int) (buf : Int → Int) :
    Nat → State → Int → Int → State
  | 0, st, _, _ => st
  | fuel + 1, st, bytesWritten, cursor =>
    if bytesWritten < numb then
      match fsWriteBody B inum numb buf st bytesWritten cursor with
      | .ok (_, bw, cur) st1 => fsWriteLoopEnd B inum numb buf fuel st1 bw cur
      | _ => fsWriteBodyEnd B inum numb buf st bytesWritten cursor
    else st

/-- The state in which `fsWrite` ends (fs.c lines 182-233), at the `return`
and at a `FATAL` alike. -/
def fsWriteEnd (B : Int) (st : State) (fd numb : Int) (buf : Int → Int) : State :=
  let inum := bfsFdToInum st fd
  if inum < 0 then st
  else
    let ofte := bfsFindOFTE st inum
    if ofte < 0 then st
    else
      let cursor := bfsTell st fd
      match fsWriteLoop B inum numb buf numb.toNat st 0 cursor with
      | .ok (_, cursor) st1 => fsWriteFinish st1 inum cursor
      | _ => fsWriteLoopEnd B inum numb buf numb.toNat st 0 cursor

/-! ## `fsFormat` -/

/-- The five initialisation steps of `fsFormat`, in the order of fs.c:
`bfsInitSuper`, `bfsInitInodes`, `bfsInitDir`, `bfsInitFreeList`,
`bfsInitOFT`. -/
inductive Step where
  | super
  | inodes
  | dir
  | freeList
  | oft
  deriving DecidableEq

/-- How a call of `fsFormat` ends: `return v` or `FATAL(e)`. -/
inductive Exit where
  | ret (v : Int)
  | fatal (e : Err)
  deriving DecidableEq

/-- What a call of `fsFormat` leaves: how it ended, the disk image and tables
after it, and the steps it ran with the code each returned, in order. -/
structure Formatted (W : Type) where
  exit : Exit
  world : W
  ran : List (Step × Int)

/-- `fsFormat` (fs.c lines 35-56).

Modelled from the spec: the collaborator's `initSuperBlock`, `initInodes`,
`initDirectory`, `initFreeList` and `initOpenFileTable`, which are not in the
sources, are the parameter `init`: a step acts on the disk image and tables
`W` and returns its code.  `fpNull` says whether `fopen` returned `NULL`. -/
def fsFormat {W : Type} (fpNull : Bool) (init : Step → W → Int × W) (w : W) : Formatted W :=
  if fpNull then ⟨.fatal .EDISKCREATE, w, []⟩
  else
    let (ret1, w1) := init .super w
    if ret1 ≠ 0 then ⟨.fatal (.code ret1), w1, [(.super, ret1)]⟩
    else
      let (ret2, w2) := init .inodes w1
      if ret2 ≠ 0 then ⟨.fatal (.code ret2), w2, [(.super, ret1), (.inodes, ret2)]⟩
      else
        let (ret3, w3) := init .dir w2
        if ret3 ≠ 0 then
          ⟨.fatal (.code ret3), w3, [(.super, ret1), (.inodes, ret2), (.dir, ret3)]⟩
        else
          let (ret4, w4) := init .freeList w3
          if ret4 ≠ 0 then
            ⟨.fatal (.code ret4), w4,
              [(.super, ret1), (.inodes, ret2), (.dir, ret3), (.freeList, ret4)]⟩
          else
            let (ret5, w5) := init .oft w4
            if ret5 ≠ 0 then
              ⟨.fatal (.code ret5), w5,
                [(.super, ret1), (.inodes, ret2), (.dir, ret3), (.freeList, ret4),
                  (.oft, ret5)]⟩
            else
              ⟨.ret 0, w5,
                [(.super, ret1), (.inodes, ret2), (.dir, ret3), (.freeList, ret4),
                  (.oft, ret5)]⟩

/-- The order in which `fsFormat` is to run its steps. -/
def formatOrder : List Step := [.super, .inodes, .dir, .freeList, .oft]

/-- The steps run as the specification words it: each step of the list in
turn on the disk image the one before left, up to and with the first that
returns a non-zero code. -/
def runSteps {W : Type} (init : Step → W → Int × W) : List Step → W → List (Step × Int) × W
  | [], w => ([], w)
  | s :: rest, w =>
    if (init s w).1 ≠ 0 then ([(s, (init s w).1)], (init s w).2)
    else ((s, (init s w).1) :: (runSteps init rest (init s w).2).1,
          (runSteps init rest (init s w).2).2)

/-- Every cursor of the open-file table is non-negative. -/
def CursorsOk (st : State) : Prop := ∀ i : Int, 0 ≤ (st.g_oft i).curs

/-- The passes the loop of `fsWrite` is to make for a cursor `c` and a count
`n`: `((c mod B) + n + B - 1) / B` for `n > 0` and none for `n ≤ 0`. -/
def passCount (B c n : Int) : Int :=
  if 0 < n then (c % B + n + B - 1) / B else 0

/-! ## Concrete states for the examples -/

/-- A state with one open file: descriptor `fd` is inode `fd - 5`, inode 0 is
open in slot 0, the file is empty with no block allocated, the free list is
`10, 11, 12, 13`, the device holds `7` everywhere, and `bfsRead` returns the
block size `512`. -/
def st0 : State where
  fdToInum := fun fd => fd - 5
  findOFTE := fun inum => if inum = 0 then 0 else -1
  g_oft := fun _ => ⟨0⟩
  size := fun _ => 0
  fbnToDbn := fun _ _ => -1
  free := [10, 11, 12, 13]
  disk := fun _ _ => 7
  readRet := fun _ _ => 512

/-- The state `st0` with the cursor of the open file at 400. -/
def st400 : State := setCurs st0 0 400

/-- The state `st0` with a file of 1000 bytes in the device blocks 10 and 11. -/
def st1000 : State :=
  { st0 with
      size := fun i => if i = 0 then 1000 else 0
      fbnToDbn := fun i f => if i = 0 ∧ f = 0 then 10 else if i = 0 ∧ f = 1 then 11 else -1
      free := [12, 13] }

/-- A caller's buffer whose bytes are between 1 and 5. -/
def bufA : Int → Int := fun i => i % 5 + 1

/-- A caller's buffer of zeros. -/
def bufZ : Int → Int := fun _ => 0

/-- The state `fsWrite` leaves when 600 bytes of `bufA` are written from
`st400` with blocks of 512 bytes. -/
def st400w : State := ((fsWrite 512 st400 5 600 bufA).st?).getD st400

/-- The state `st0` with the cursor of the open file at the greatest `i32`. -/
def stMax : State := setCurs st0 0 2147483647

/-- Initialisation steps that keep a count of the steps run as the disk image
and return 0, but for the directory step, which returns 7. -/
def initDirFails : Step → Nat → Int × Nat :=
  fun s w => (if s = .dir then 7 else 0, w + 1)

/-- Initialisation steps that all return 0 and count the steps run. -/
def initOk : Step → Nat → Int × Nat := fun _ w => (0, w + 1)

end BFS

/-! # Theorems -/

namespace BFS

/-! ## Machine integers -/

theorem wrap32_of_I32 {x : Int} (h : I32 x) : wrap32 x = x := by
  unfold I32 at h
  unfold wrap32
  omega

/-! ## Reading -/

/-- C8: with a valid descriptor whose cursor is at or beyond the file size,
`fsRead` returns 0 without aborting, and the state (cursor, size, blocks) and
the caller's buffer are what they were. -/
theorem fsRead_at_eof (B : Int) (st : State) (fd numb : Int) (buf : Int → Int)
    (hfd : ValidFd st fd) (heof : fsSize st fd ≤ fsTell st fd) :
    fsRead B st fd numb buf = .ok (0, buf) st := by
  obtain ⟨h1, h2⟩ := hfd
  unfold fsSize at heof
  unfold fsTell bfsTell at heof
  simp only [fsRead]
  rw [if_neg (not_lt.mpr h1), if_neg (not_lt.mpr h2), if_pos heof]

theorem fsRead_at_eof_witness :
    ValidFd st0 5 ∧ fsSize st0 5 ≤ fsTell st0 5 ∧
      fsRead 512 st0 5 10 bufA = .ok (0, bufA) st0 :=
  ⟨by decide, by decide, fsRead_at_eof 512 st0 5 10 bufA (by decide) (by decide)⟩

/-- C9: when `fsRead` succeeds and returns `r`, and `c + r` is an `i32`, the
cursor afterwards is `c + r`, where `c` is the cursor before the call. -/
theorem fsRead_cursor (B : Int) (st st1 : State) (fd numb r : Int) (buf buf1 : Int → Int)
    (hok : fsRead B st fd numb buf = .ok (r, buf1) st1)
    (hr : I32 (fsTell st fd + r)) :
    fsTell st1 fd = fsTell st fd + r := by
  simp only [fsRead] at hok
  split at hok
  · cases hok
  · split at hok
    · cases hok
    · split at hok
      · injection hok with hv hs
        injection hv with hv1 hv2
        subst hs; subst hv1
        simp
      · simp only [bfsRead] at hok
        split at hok
        · cases hok
        · injection hok with hv hs
          injection hv with hv1 hv2
          subst hs; subst hv1
          simp only [fsTell, bfsTell, bfsSetCursor, bfsFindOFTE, bfsFdToInum] at hr ⊢
          simp [wrap32_of_I32 hr]

theorem fsRead_cursor_witness :
    fsRead 512 st1000 5 10 bufZ
        = .ok (512, (bfsRead 512 st1000 0 0 bufZ).2) (bfsSetCursor st1000 0 512) ∧
      I32 (fsTell st1000 5 + 512) ∧
      fsTell (bfsSetCursor st1000 0 512) 5 = fsTell st1000 5 + 512 :=
  ⟨rfl, by decide,
    fsRead_cursor 512 st1000 (bfsSetCursor st1000 0 512) 5 10 512 bufZ
      (bfsRead 512 st1000 0 0 bufZ).2 rfl (by decide)⟩

/-- The outcome of `fsRead` (count, buffer and state) is the same for every
`numb`: the code hands `numb` to nothing but the computation of `bytesToRead`. -/
theorem fsRead_numb_irrelevant (B : Int) (st : State) (fd n m : Int) (buf : Int → Int) :
    fsRead B st fd n buf = fsRead B st fd m buf := by
  simp only [fsRead]

/-- Whatever `bfsRead` counts, there is no state with a valid descriptor and
a cursor before the end of the file in which `fsRead` returns `min n (s - c)`
for every count `n ≥ 0`: the count it returns is the one `bfsRead` reports,
which does not depend on `n`. -/
theorem fsRead_not_clamped :
    ¬ ∃ (B : Int) (st : State) (fd : Int) (buf : Int → Int),
        ValidFd st fd ∧ 0 ≤ fsTell st fd ∧ fsTell st fd < fsSize st fd ∧
        ∀ n : Int, 0 ≤ n →
          ((fsRead B st fd n buf).val?).map Prod.fst
            = some (min n (fsSize st fd - fsTell st fd)) := by
  rintro ⟨B, st, fd, buf, -, -, hlt, h⟩
  have h0 := h 0 (le_refl 0)
  have h1 := h (fsSize st fd - fsTell st fd) (by omega)
  rw [fsRead_numb_irrelevant B st fd 0 (fsSize st fd - fsTell st fd) buf, h1] at h0
  rw [Option.some.injEq] at h0
  have h2 : min (fsSize st fd - fsTell st fd) (fsSize st fd - fsTell st fd)
      = fsSize st fd - fsTell st fd := min_self _
  have h3 : min (0 : Int) (fsSize st fd - fsTell st fd) = 0 := min_eq_left (by omega)
  omega

/-- C7 (the code departs from it): on a file of 1000 bytes with the cursor at
0 and blocks of 512 bytes, `fsRead` of 10 bytes returns the 512 that `bfsRead`
reports, where `min 10 (1000 - 0)` is 10; the value the code computes for
`bytesToRead` is 10, and it is not what is returned. -/
theorem fsRead_returns_block_count :
    ValidFd st1000 5 ∧ fsTell st1000 5 = 0 ∧ fsSize st1000 5 = 1000 ∧
      ((fsRead 512 st1000 5 10 bufZ).val?).map Prod.fst = some 512 ∧
      min (10 : Int) (fsSize st1000 5 - fsTell st1000 5) = 10 ∧
      bytesToRead (fsTell st1000 5) 10 (fsSize st1000 5) = 10 := by
  decide

/-- C6 (the code departs from it): with blocks of 512 bytes, writing 600
bytes at cursor 400, seeking back to 400 and reading 600 bytes returns 512,
not 600, and the buffer starts with the first byte of file block 0 (the old
device byte 7), not with the first byte written (1); the same happens to the
data when only 10 bytes are written and read, inside one block. -/
theorem write_then_read_differs :
    ((writeSeekRead 512 st400 5 400 600 bufA bufZ).val?).map Prod.fst = some 512 ∧
      ((writeSeekRead 512 st400 5 400 600 bufA bufZ).val?).map (fun v => v.2 0) = some 7 ∧
      ((writeSeekRead 512 st400 5 400 10 bufA bufZ).val?).map (fun v => v.2 0) = some 7 ∧
      bufA 0 = 1 := by
  decide

/-- Whatever `bfsRead` counts, a successful `fsRead` before the end of the
file fills the buffer with the file block of the cursor from that block's
first byte on, wherever in the block the cursor is. -/
theorem fsRead_hands_block (B : Int) (st st1 : State) (fd numb r : Int) (buf buf1 : Int → Int)
    (hok : fsRead B st fd numb buf = .ok (r, buf1) st1)
    (hlt : fsTell st fd < fsSize st fd) (i : Int) (h0 : 0 ≤ i) (hB : i < B) :
    buf1 i = st.disk (bfsFbnToDbn st (bfsFdToInum st fd) (Int.tdiv (fsTell st fd) B)) i := by
  simp only [fsRead] at hok
  split at hok
  · cases hok
  · split at hok
    · cases hok
    · split at hok
      · rename_i h
        simp only [fsTell, bfsTell, fsSize] at hlt
        omega
      · simp only [bfsRead] at hok
        split at hok
        · cases hok
        · injection hok with hv hs
          injection hv with hv1 hv2
          subst hv2
          simp [fsTell, bfsTell, h0, hB]

/-! ## Seeking -/

/-- C10: with a valid descriptor and `offset ≥ 0`, `fsSeek` returns 0 and
`fsTell` afterwards returns `offset` for `SEEK_SET`, `c + offset` for
`SEEK_CUR` and `s + offset` for `SEEK_END` (each sum being an `i32`), where
`c` is the cursor and `s` the file size before; in particular a seek to 0
with `SEEK_SET` makes `fsTell` return 0. -/
theorem fsSeek_then_fsTell (st : State) (fd offset : Int)
    (_hfd : ValidFd st fd) (hoff : 0 ≤ offset) :
    (∃ st1, fsSeek st fd offset SEEK_SET = .ok 0 st1 ∧ fsTell st1 fd = offset) ∧
    (I32 (fsTell st fd + offset) →
      ∃ st1, fsSeek st fd offset SEEK_CUR = .ok 0 st1 ∧
        fsTell st1 fd = fsTell st fd + offset) ∧
    (I32 (fsSize st fd + offset) →
      ∃ st1, fsSeek st fd offset SEEK_END = .ok 0 st1 ∧
        fsTell st1 fd = fsSize st fd + offset) ∧
    (∃ st1, fsSeek st fd 0 SEEK_SET = .ok 0 st1 ∧ fsTell st1 fd = 0) := by
  have hno : ¬ offset < 0 := not_lt.mpr hoff
  have h0 : ¬ (0 : Int) < 0 := by decide
  refine ⟨?_, ?_, ?_, ?_⟩
  · exact ⟨setCurs st (bfsFindOFTE st (bfsFdToInum st fd)) offset,
      by simp only [fsSeek, if_neg hno, if_true],
      by simp [fsTell, bfsTell, setCurs, bfsFindOFTE, bfsFdToInum]⟩
  · intro h
    simp only [fsTell, bfsTell] at h
    exact ⟨setCurs st (bfsFindOFTE st (bfsFdToInum st fd))
        (wrap32 ((st.g_oft (bfsFindOFTE st (bfsFdToInum st fd))).curs + offset)),
      by simp [fsSeek, hno, SEEK_SET, SEEK_CUR],
      by rw [wrap32_of_I32 h]; simp [fsTell, bfsTell, setCurs, bfsFindOFTE, bfsFdToInum]⟩
  · intro h
    exact ⟨setCurs st (bfsFindOFTE st (bfsFdToInum st fd)) (wrap32 (fsSize st fd + offset)),
      by simp [fsSeek, hno, SEEK_SET, SEEK_CUR, SEEK_END],
      by simp [fsTell, bfsTell, setCurs, bfsFindOFTE, bfsFdToInum, wrap32_of_I32 h]⟩
  · exact ⟨setCurs st (bfsFindOFTE st (bfsFdToInum st fd)) 0,
      by simp only [fsSeek, if_neg h0, if_true],
      by simp [fsTell, bfsTell, setCurs, bfsFindOFTE, bfsFdToInum]⟩

theorem fsSeek_then_fsTell_witness :
    ValidFd st1000 5 ∧ (0 : Int) ≤ 40 ∧
      (∃ st1, fsSeek st1000 5 40 SEEK_SET = .ok 0 st1 ∧ fsTell st1 5 = 40) ∧
      (∃ st1, fsSeek st1000 5 40 SEEK_CUR = .ok 0 st1 ∧
        fsTell st1 5 = fsTell st1000 5 + 40) ∧
      (∃ st1, fsSeek st1000 5 40 SEEK_END = .ok 0 st1 ∧
        fsTell st1 5 = fsSize st1000 5 + 40) ∧
      (∃ st1, fsSeek st1000 5 0 SEEK_SET = .ok 0 st1 ∧ fsTell st1 5 = 0) :=
  ⟨by decide, by decide,
    (fsSeek_then_fsTell st1000 5 40 (by decide) (by decide)).1,
    (fsSeek_then_fsTell st1000 5 40 (by decide) (by decide)).2.1 (by decide),
    (fsSeek_then_fsTell st1000 5 40 (by decide) (by decide)).2.2.1 (by decide),
    (fsSeek_then_fsTell st1000 5 40 (by decide) (by decide)).2.2.2⟩

/-! ## Writing: the loop -/

theorem chunkLen_pos (B numb w cur : Int) (hB : 0 < B) (hw : w < numb) :
    1 ≤ chunkLen B numb w cur := by
  have h1 := Int.emod_lt_of_pos cur hB
  unfold chunkLen
  exact le_min (by omega) (by omega)

theorem chunkLen_le_left (B numb w cur : Int) : chunkLen B numb w cur ≤ B - cur % B :=
  min_le_left _ _

theorem chunkLen_le_right (B numb w cur : Int) : chunkLen B numb w cur ≤ numb - w :=
  min_le_right _ _

/-- The body of the loop while all its quantities are `i32`s: the chunk has
length `chunkLen`, and the pass fails exactly when no block can be had. -/
theorem fsWriteBody_eq (B inum numb : Int) (buf : Int → Int) (st : State) (w cur : Int)
    (hB : 0 < B) (hB32 : B ≤ 2147483647) (hn32 : numb ≤ 2147483647)
    (hw0 : 0 ≤ w) (hw : w < numb)
    (hc : 0 ≤ cur) (hend : cur + (numb - w) ≤ 2147483647) :
    fsWriteBody B inum numb buf st w cur =
      if (ensureBlock st inum (cur / B)).1 < 0 then .fatal .EDISKFULL
      else .ok (⟨cur, cur / B, cur % B, chunkLen B numb w cur, w⟩,
                w + chunkLen B numb w cur, cur + chunkLen B numb w cur)
            (rmw B buf (ensureBlock st inum (cur / B)).2 (ensureBlock st inum (cur / B)).1
              (cur % B) w (chunkLen B numb w cur)) := by
  have hm0 := Int.emod_nonneg cur (ne_of_gt hB)
  have hm1 := Int.emod_lt_of_pos cur hB
  have hd : Int.tdiv cur B = cur / B := Int.tdiv_eq_ediv hc (le_of_lt hB)
  have hm : Int.tmod cur B = cur % B := Int.tmod_eq_emod hc (le_of_lt hB)
  have e1 : wrap32 (B - cur % B) = B - cur % B := wrap32_of_I32 ⟨by omega, by omega⟩
  have e2 : wrap32 (numb - w) = numb - w := wrap32_of_I32 ⟨by omega, by omega⟩
  have ht : (if B - cur % B > numb - w then numb - w else B - cur % B)
      = chunkLen B numb w cur := by
    unfold chunkLen
    split
    · exact (min_eq_right (by omega)).symm
    · exact (min_eq_left (by omega)).symm
  have hp := chunkLen_pos B _ w cur hB hw
  have hr := chunkLen_le_right B numb w cur
  have e3 : wrap32 (w + chunkLen B numb w cur) = w + chunkLen B numb w cur :=
    wrap32_of_I32 ⟨by omega, by omega⟩
  have e4 : wrap32 (cur + chunkLen B numb w cur) = cur + chunkLen B numb w cur :=
    wrap32_of_I32 ⟨by omega, by omega⟩
  simp only [fsWriteBody, hd, hm, e1, e2, ht, ensureBlock]
  by_cases hmap : bfsFbnToDbn st inum (cur / B) < 0
  · simp only [if_pos hmap]
    split
    · rfl
    · simp only [fsWriteBlock, e3, e4, rmw]
  · simp only [if_neg hmap, fsWriteBlock, e3, e4, rmw]

theorem fsWriteLoop_of_ge (B inum numb : Int) (buf : Int → Int) (fuel : Nat) (st : State)
    (w cur : Int) (h : ¬ w < numb) :
    fsWriteLoop B inum numb buf fuel st w cur = .ok (w, cur) st := by
  cases fuel <;> simp only [fsWriteLoop, if_neg h]

/-- One pass of the loop while all its quantities are `i32`s. -/
theorem fsWriteLoop_succ (B inum numb : Int) (buf : Int → Int) (fuel : Nat) (st : State)
    (w cur : Int)
    (hB : 0 < B) (hB32 : B ≤ 2147483647) (hn32 : numb ≤ 2147483647)
    (hw0 : 0 ≤ w) (hw : w < numb)
    (hc : 0 ≤ cur) (hend : cur + (numb - w) ≤ 2147483647) :
    fsWriteLoop B inum numb buf (fuel + 1) st w cur =
      if (ensureBlock st inum (cur / B)).1 < 0 then .fatal .EDISKFULL
      else fsWriteLoop B inum numb buf fuel
            (rmw B buf (ensureBlock st inum (cur / B)).2 (ensureBlock st inum (cur / B)).1
              (cur % B) w (chunkLen B numb w cur))
            (w + chunkLen B numb w cur) (cur + chunkLen B numb w cur) := by
  simp only [fsWriteLoop, if_pos hw,
    fsWriteBody_eq B inum numb buf st w cur hB hB32 hn32 hw0 hw hc hend]
  by_cases hd : (ensureBlock st inum (cur / B)).1 < 0
  · simp only [if_pos hd]
  · simp only [if_neg hd]

theorem SameTables.refl (st : State) : SameTables st st := ⟨rfl, rfl, rfl, rfl, rfl⟩

theorem SameTables.trans {a b c : State} (h1 : SameTables a b) (h2 : SameTables b c) :
    SameTables a c :=
  ⟨h2.1.trans h1.1, h2.2.1.trans h1.2.1, h2.2.2.1.trans h1.2.2.1,
    h2.2.2.2.1.trans h1.2.2.2.1, h2.2.2.2.2.trans h1.2.2.2.2⟩

theorem ensureBlock_sameTables (st : State) (inum fbn : Int) :
    SameTables st (ensureBlock st inum fbn).2 := by
  unfold ensureBlock
  split
  · unfold bfsAllocBlock
    split
    · exact SameTables.refl st
    · exact ⟨rfl, rfl, rfl, rfl, rfl⟩
  · exact SameTables.refl st

theorem rmw_sameTables (B : Int) (buf : Int → Int) (st : State) (dbn off src t : Int) :
    SameTables st (rmw B buf st dbn off src t) := ⟨rfl, rfl, rfl, rfl, rfl⟩

/-- The loop of `fsWrite` is total on `i32` quantities: unless a block cannot
be had, `numb - w` passes are enough, all bytes get written, the cursor moves
by their number, and the tables other than the block map are untouched. -/
theorem fsWriteLoop_ok (B inum numb : Int) (buf : Int → Int)
    (hB : 0 < B) (hB32 : B ≤ 2147483647) (hn32 : numb ≤ 2147483647) :
    ∀ (fuel : Nat) (st : State) (w cur : Int), 0 ≤ w → w ≤ numb → 0 ≤ cur →
      cur + (numb - w) ≤ 2147483647 → numb - w ≤ fuel →
      (fsWriteLoop B inum numb buf fuel st w cur).aborts ≠ some .EDISKFULL →
      ∃ st1, fsWriteLoop B inum numb buf fuel st w cur = .ok (numb, cur + (numb - w)) st1 ∧
        SameTables st st1 := by
  intro fuel
  induction fuel with
  | zero =>
    intro st w cur _ hwn _ _ hfuel _
    have hw : w = numb := by omega
    subst hw
    exact ⟨st, by rw [fsWriteLoop_of_ge _ _ _ _ _ _ _ _ (lt_irrefl _)]; simp,
      SameTables.refl st⟩
  | succ fuel ih =>
    intro st w cur hw0 hwn hc hend hfuel hfull
    by_cases hw : w < numb
    · rw [fsWriteLoop_succ B inum numb buf fuel st w cur hB hB32 hn32 hw0 hw hc hend] at hfull ⊢
      by_cases hd : (ensureBlock st inum (cur / B)).1 < 0
      · rw [if_pos hd] at hfull
        exact absurd rfl hfull
      · rw [if_neg hd] at hfull ⊢
        have hp := chunkLen_pos B _ w cur hB hw
        have hr := chunkLen_le_right B numb w cur
        obtain ⟨st1, h1, h2⟩ := ih _ (w + chunkLen B numb w cur) (cur + chunkLen B numb w cur)
          (by omega) (by omega) (by omega) (by omega) (by push_cast at hfuel; omega) hfull
        refine ⟨st1, ?_, ?_⟩
        · rw [h1]
          congr 2
          omega
        · exact ((ensureBlock_sameTables st inum (cur / B)).trans
            (rmw_sameTables B buf _ _ _ _ _)).trans h2
    · have hw' : w = numb := by omega
      subst hw'
      exact ⟨st, by rw [fsWriteLoop_of_ge _ _ _ _ _ _ _ _ (lt_irrefl _)]; simp,
        SameTables.refl st⟩

/-- `fsWrite` on a valid descriptor, with `c ≥ 0`, `n ≥ 0` and `c + n` an
`i32`: unless a block cannot be had, the loop ends with `n` bytes written and
the cursor at `c + n`, and `fsWrite` returns `n` after its last statements. -/
theorem fsWrite_ok (B : Int) (st : State) (fd n : Int) (buf : Int → Int)
    (hB : 0 < B) (hB32 : B ≤ 2147483647) (hfd : ValidFd st fd)
    (hc : 0 ≤ fsTell st fd) (hn : 0 ≤ n) (hend : fsTell st fd + n ≤ 2147483647)
    (hfull : (fsWrite B st fd n buf).aborts ≠ some .EDISKFULL) :
    ∃ st1, SameTables st st1 ∧
      fsWriteLoop B (bfsFdToInum st fd) n buf n.toNat st 0 (fsTell st fd)
        = .ok (n, fsTell st fd + n) st1 ∧
      fsWrite B st fd n buf
        = .ok n (fsWriteFinish st1 (bfsFdToInum st fd) (fsTell st fd + n)) := by
  obtain ⟨h1, h2⟩ := hfd
  have e : fsWrite B st fd n buf =
      match fsWriteLoop B (bfsFdToInum st fd) n buf n.toNat st 0 (fsTell st fd) with
      | .ok (bytesWritten, cursor) st1 => .ok bytesWritten (fsWriteFinish st1 (bfsFdToInum st fd) cursor)
      | .fatal e => .fatal e
      | .timeout => .timeout := by
    simp only [fsWrite, if_neg (not_lt.mpr h1), if_neg (not_lt.mpr h2), fsTell, fsWriteFinish]
  have hfull' : (fsWriteLoop B (bfsFdToInum st fd) n buf n.toNat st 0 (fsTell st fd)).aborts
      ≠ some .EDISKFULL := by
    intro h
    apply hfull
    rw [e]
    revert h
    cases fsWriteLoop B (bfsFdToInum st fd) n buf n.toNat st 0 (fsTell st fd) <;>
      simp [Res.aborts]
  obtain ⟨st1, hl, hs⟩ := fsWriteLoop_ok B (bfsFdToInum st fd) n buf hB hB32 (by omega)
    n.toNat st 0 (fsTell st fd) (le_refl 0) hn hc (by omega)
    (by rw [Int.toNat_of_nonneg hn]; omega) hfull'
  rw [sub_zero] at hl
  exact ⟨st1, hs, hl, by rw [e, hl]⟩

/-! ## Writing: what `fsWrite` returns, the cursor and the size -/

/-- C1: on a valid descriptor with cursor `c ≥ 0` and old size `s`, for a
count `n ≥ 0` with `c + n` an `i32`, when no block allocation fails `fsWrite`
succeeds and the file size afterwards is `max s (c + n)`; so a write ending
at or before `s` leaves the size as it is, and the size never shrinks. -/
theorem fsWrite_size (B : Int) (st : State) (fd n : Int) (buf : Int → Int)
    (hB : 0 < B) (hB32 : B ≤ 2147483647) (hfd : ValidFd st fd)
    (hc : 0 ≤ fsTell st fd) (hn : 0 ≤ n) (hend : fsTell st fd + n ≤ 2147483647)
    (hfull : (fsWrite B st fd n buf).aborts ≠ some .EDISKFULL) :
    ∃ st1, fsWrite B st fd n buf = .ok n st1 ∧
      fsSize st1 fd = max (fsSize st fd) (fsTell st fd + n) ∧
      (fsTell st fd + n ≤ fsSize st fd → fsSize st1 fd = fsSize st fd) ∧
      fsSize st fd ≤ fsSize st1 fd := by
  obtain ⟨st1, ⟨t1, -, -, t4, -⟩, -, hw⟩ := fsWrite_ok B st fd n buf hB hB32 hfd hc hn hend hfull
  have key : fsSize (fsWriteFinish st1 (bfsFdToInum st fd) (fsTell st fd + n)) fd
      = max (fsSize st fd) (fsTell st fd + n) := by
    simp only [fsWriteFinish, fsSize, bfsGetSize, bfsSetCursor, bfsSetSize, bfsFdToInum, t4]
    by_cases h : fsTell st fd + n > st.size (st.fdToInum fd)
    · rw [if_pos h]
      simp only [t1, if_true]
      exact (max_eq_right (le_of_lt h)).symm
    · rw [if_neg h]
      simp only [t1, t4]
      exact (max_eq_left (not_lt.mp h)).symm
  refine ⟨_, hw, key, ?_, ?_⟩
  · intro h
    rw [key]
    exact max_eq_left h
  · rw [key]
    exact le_max_left _ _

theorem fsWrite_size_witness :
    (0 : Int) < 512 ∧ ValidFd st1000 5 ∧ 0 ≤ fsTell st1000 5 ∧ (0 : Int) ≤ 600 ∧
      (fsWrite 512 st1000 5 600 bufA).aborts ≠ some .EDISKFULL ∧
      ∃ st1, fsWrite 512 st1000 5 600 bufA = .ok 600 st1 ∧
        fsSize st1 5 = max (fsSize st1000 5) (fsTell st1000 5 + 600) ∧
        (fsTell st1000 5 + 600 ≤ fsSize st1000 5 → fsSize st1 5 = fsSize st1000 5) ∧
        fsSize st1000 5 ≤ fsSize st1 5 :=
  ⟨by decide, by decide, by decide, by decide, by decide,
    fsWrite_size 512 st1000 5 600 bufA (by decide) (by decide) (by decide) (by decide)
      (by decide) (by decide) (by decide)⟩

/-- C2: on a valid descriptor with cursor `c ≥ 0`, for a count `n ≥ 0` with
`c + n` an `i32`, when no block allocation fails `fsWrite` returns exactly
`n` and leaves the cursor at `c + n`. -/
theorem fsWrite_returns_count (B : Int) (st : State) (fd n : Int) (buf : Int → Int)
    (hB : 0 < B) (hB32 : B ≤ 2147483647) (hfd : ValidFd st fd)
    (hc : 0 ≤ fsTell st fd) (hn : 0 ≤ n) (hend : fsTell st fd + n ≤ 2147483647)
    (hfull : (fsWrite B st fd n buf).aborts ≠ some .EDISKFULL) :
    ∃ st1, fsWrite B st fd n buf = .ok n st1 ∧ fsTell st1 fd = fsTell st fd + n := by
  obtain ⟨st1, ⟨t1, t2, -, -, -⟩, -, hw⟩ := fsWrite_ok B st fd n buf hB hB32 hfd hc hn hend hfull
  refine ⟨_, hw, ?_⟩
  simp only [fsWriteFinish, bfsSetCursor, bfsSetSize, bfsFindOFTE, bfsFdToInum]
  split <;> simp [fsTell, bfsTell, bfsFindOFTE, bfsFdToInum, t1, t2]

theorem fsWrite_returns_count_witness :
    (0 : Int) < 512 ∧ ValidFd st400 5 ∧ 0 ≤ fsTell st400 5 ∧ (0 : Int) ≤ 600 ∧
      (fsWrite 512 st400 5 600 bufA).aborts ≠ some .EDISKFULL ∧
      ∃ st1, fsWrite 512 st400 5 600 bufA = .ok 600 st1 ∧
        fsTell st1 5 = fsTell st400 5 + 600 :=
  ⟨by decide, by decide, by decide, by decide, by decide,
    fsWrite_returns_count 512 st400 5 600 bufA (by decide) (by decide) (by decide)
      (by decide) (by decide) (by decide) (by decide)⟩

/-! ## Writing: the chunks -/

/-- The positions from `cur` to the end of its block are in the block of
`cur`, at the offsets that follow the offset of `cur`. -/
theorem block_of_pos (B cur p : Int) (hB : 0 < B) (h1 : cur ≤ p)
    (h2 : p < cur + (B - cur % B)) :
    p / B = cur / B ∧ p % B = cur % B + (p - cur) := by
  have hm0 := Int.emod_nonneg cur (ne_of_gt hB)
  have he := Int.emod_add_ediv cur B
  exact (Int.ediv_emod_unique hB).mpr ⟨by omega, by omega, by omega⟩

/-- The chunks the loop issues are those of `chunkSeq`, on `i32` quantities
and unless a block cannot be had. -/
theorem fsWriteChunks_eq (B inum numb : Int) (buf : Int → Int)
    (hB : 0 < B) (hB32 : B ≤ 2147483647) (hn32 : numb ≤ 2147483647) :
    ∀ (fuel : Nat) (st : State) (w cur : Int), 0 ≤ w → w ≤ numb → 0 ≤ cur →
      cur + (numb - w) ≤ 2147483647 →
      (fsWriteLoop B inum numb buf fuel st w cur).aborts ≠ some .EDISKFULL →
      fsWriteChunks B inum numb buf fuel st w cur = chunkSeq B numb fuel w cur := by
  intro fuel
  induction fuel with
  | zero => intros; rfl
  | succ fuel ih =>
    intro st w cur hw0 hwn hc hend hfull
    by_cases hw : w < numb
    · rw [fsWriteLoop_succ B inum numb buf fuel st w cur hB hB32 hn32 hw0 hw hc hend] at hfull
      simp only [fsWriteChunks, chunkSeq, if_pos hw,
        fsWriteBody_eq B inum numb buf st w cur hB hB32 hn32 hw0 hw hc hend]
      by_cases hd : (ensureBlock st inum (cur / B)).1 < 0
      · rw [if_pos hd] at hfull
        exact absurd rfl hfull
      · rw [if_neg hd] at hfull
        simp only [if_neg hd]
        have hp := chunkLen_pos B _ w cur hB hw
        have hr := chunkLen_le_right B numb w cur
        rw [ih _ (w + chunkLen B numb w cur) (cur + chunkLen B numb w cur)
          (by omega) (by omega) (by omega) (by omega) hfull]
    · simp only [fsWriteChunks, chunkSeq, if_neg hw]

/-- What the chunks of `chunkSeq` are, given passes enough for the bytes
owed: each chunk is the one the specification describes, the chunks follow
one another, start at `cur`, and cover the positions from `cur` on that are
owed, and nothing else. -/
theorem chunkSeq_spec (B numb : Int) (hB : 0 < B) :
    ∀ (fuel : Nat) (w cur : Int), w ≤ numb → numb - w ≤ fuel →
      (∀ ch ∈ chunkSeq B numb fuel w cur,
        ch.fbn = ch.cursor / B ∧ ch.offset = ch.cursor % B ∧
        ch.src = w + (ch.cursor - cur) ∧
        ch.toWrite = min (B - ch.cursor % B) (numb - ch.src) ∧
        1 ≤ ch.toWrite ∧ ch.offset + ch.toWrite ≤ B ∧
        cur ≤ ch.cursor ∧ ch.cursor + ch.toWrite ≤ cur + (numb - w)) ∧
      List.Chain' (fun a b : Chunk => b.cursor = a.cursor + a.toWrite)
        (chunkSeq B numb fuel w cur) ∧
      (∀ ch ∈ (chunkSeq B numb fuel w cur).head?, ch.cursor = cur) ∧
      (w < numb → chunkSeq B numb fuel w cur ≠ []) ∧
      (∀ p, cur ≤ p → p < cur + (numb - w) →
        ∃ ch ∈ chunkSeq B numb fuel w cur, ch.cursor ≤ p ∧ p < ch.cursor + ch.toWrite) ∧
      ((chunkSeq B numb fuel w cur).map Chunk.toWrite).sum = numb - w := by
  intro fuel
  induction fuel with
  | zero =>
    intro w cur hwn hfuel
    have hw : w = numb := by omega
    subst hw
    refine ⟨by simp [chunkSeq], by simp [chunkSeq], by simp [chunkSeq], fun h => absurd h (lt_irrefl _), ?_, by simp [chunkSeq]⟩
    intro p h1 h2
    omega
  | succ fuel ih =>
    intro w cur hwn hfuel
    by_cases hw : w < numb
    · have hp := chunkLen_pos B _ w cur hB hw
      have hr := chunkLen_le_right B numb w cur
      have hl := chunkLen_le_left B numb w cur
      obtain ⟨i1, i2, i3, -, i5, i6⟩ := ih (w + chunkLen B numb w cur)
        (cur + chunkLen B numb w cur) (by omega) (by push_cast at hfuel; omega)
      simp only [chunkSeq, if_pos hw]
      refine ⟨?_, ?_, ?_, ?_, ?_, ?_⟩
      · intro ch hch
        rcases List.mem_cons.mp hch with h | h
        · subst h
          refine ⟨rfl, rfl, by simp, ?_, hp, ?_, le_refl _, by simp only; omega⟩
          · simp only [chunkLen]
          · simp only; omega
        · obtain ⟨a1, a2, a3, a4, a5, a6, a7, a8⟩ := i1 ch h
          exact ⟨a1, a2, by omega, a4, a5, a6, by omega, by omega⟩
      · rw [List.chain'_cons']
        refine ⟨?_, i2⟩
        intro ch hch
        exact i3 ch hch
      · intro ch hch
        simp only [List.head?_cons, Option.mem_def, Option.some.injEq] at hch
        subst hch
        rfl
      · intro _
        exact List.cons_ne_nil _ _
      · intro p h1 h2
        by_cases hp1 : p < cur + chunkLen B numb w cur
        · exact ⟨_, List.mem_cons_self _ _, h1, hp1⟩
        · obtain ⟨ch, hch, c1, c2⟩ := i5 p (by omega) (by omega)
          exact ⟨ch, List.mem_cons_of_mem _ hch, c1, c2⟩
      · simp only [List.map_cons, List.sum_cons, i6]
        omega
    · have hw' : w = numb := by omega
      subst hw'
      simp only [chunkSeq, if_neg hw]
      refine ⟨by simp, by simp, by simp, fun h => absurd h (lt_irrefl _), ?_, by simp⟩
      intro p h1 h2
      omega

/-- On a valid descriptor `fsWrite` is its loop followed by its last three
statements. -/
theorem fsWrite_eq_of_valid (B : Int) (st : State) (fd n : Int) (buf : Int → Int)
    (hfd : ValidFd st fd) :
    fsWrite B st fd n buf =
      (fsWriteLoop B (bfsFdToInum st fd) n buf n.toNat st 0 (fsTell st fd)).andThen
        fun v st1 => .ok v.1 (fsWriteFinish st1 (bfsFdToInum st fd) v.2) := by
  obtain ⟨h1, h2⟩ := hfd
  simp only [fsWrite, if_neg (not_lt.mpr h1), if_neg (not_lt.mpr h2), fsTell, fsWriteFinish,
    Res.andThen]
  split <;> simp_all

/-- When `fsWrite` on a valid descriptor does not abort for want of a block,
neither does its loop. -/
theorem fsWriteLoop_not_full (B : Int) (st : State) (fd n : Int) (buf : Int → Int)
    (hfd : ValidFd st fd) (hfull : (fsWrite B st fd n buf).aborts ≠ some .EDISKFULL) :
    (fsWriteLoop B (bfsFdToInum st fd) n buf n.toNat st 0 (fsTell st fd)).aborts
      ≠ some .EDISKFULL := by
  intro h
  apply hfull
  rw [fsWrite_eq_of_valid B st fd n buf hfd]
  revert h
  cases fsWriteLoop B (bfsFdToInum st fd) n buf n.toNat st 0 (fsTell st fd) <;>
    simp [Res.aborts, Res.andThen]

/-- C3: for a block size `B > 0`, a cursor `c ≥ 0` and a count `n > 0`
(`i32`s, with `c + n` an `i32`), on a valid descriptor and when no block
allocation fails, the chunks `fsWrite` issues start at `c`; chunk `k` at
running cursor `c_k` targets file block `c_k / B` at offset `c_k % B`, takes
its bytes from `c_k - c` bytes into the buffer (the bytes already written)
and has length `min (B - c_k % B) (n - (c_k - c))`; each chunk lies inside
one block; each chunk starts where the one before ends; a position is in
some chunk exactly when it is in `[c, c + n)`, and the lengths add up to `n`.
With `B = 512`, `c = 400`, `n = 600` the chunks are 112 bytes at offset 400
of file block 0 and 488 bytes at offset 0 of file block 1. -/
theorem fsWrite_chunks (B : Int) (st : State) (fd n : Int) (buf : Int → Int)
    (hB : 0 < B) (hB32 : B ≤ 2147483647) (hfd : ValidFd st fd)
    (hc : 0 ≤ fsTell st fd) (hn : 0 < n) (hend : fsTell st fd + n ≤ 2147483647)
    (hfull : (fsWrite B st fd n buf).aborts ≠ some .EDISKFULL) :
    fsWriteTrace B st fd n buf ≠ [] ∧
    (∀ ch ∈ (fsWriteTrace B st fd n buf).head?, ch.cursor = fsTell st fd) ∧
    (∀ ch ∈ fsWriteTrace B st fd n buf,
      ch.fbn = ch.cursor / B ∧ ch.offset = ch.cursor % B ∧
      ch.src = ch.cursor - fsTell st fd ∧
      ch.toWrite = min (B - ch.cursor % B) (n - (ch.cursor - fsTell st fd)) ∧
      1 ≤ ch.toWrite ∧ 0 ≤ ch.offset ∧ ch.offset + ch.toWrite ≤ B ∧
      ∀ p, ch.cursor ≤ p → p < ch.cursor + ch.toWrite →
        p / B = ch.fbn ∧ p % B = ch.offset + (p - ch.cursor)) ∧
    List.Chain' (fun a b : Chunk => b.cursor = a.cursor + a.toWrite)
      (fsWriteTrace B st fd n buf) ∧
    (∀ p, (fsTell st fd ≤ p ∧ p < fsTell st fd + n) ↔
      ∃ ch ∈ fsWriteTrace B st fd n buf, ch.cursor ≤ p ∧ p < ch.cursor + ch.toWrite) ∧
    ((fsWriteTrace B st fd n buf).map Chunk.toWrite).sum = n ∧
    (B = 512 → fsTell st fd = 400 → n = 600 →
      fsWriteTrace B st fd n buf = [⟨400, 0, 400, 112, 0⟩, ⟨512, 1, 0, 488, 112⟩]) := by
  have htr : fsWriteTrace B st fd n buf = chunkSeq B n n.toNat 0 (fsTell st fd) := by
    have h := fsWriteChunks_eq B (bfsFdToInum st fd) n buf hB hB32 (by omega) n.toNat st 0
      (fsTell st fd) (le_refl 0) (le_of_lt hn) hc (by omega)
      (fsWriteLoop_not_full B st fd n buf hfd hfull)
    rw [← h]
    simp only [fsWriteTrace, if_neg (not_lt.mpr hfd.1), if_neg (not_lt.mpr hfd.2), fsTell]
  obtain ⟨i1, i2, i3, i4, i5, i6⟩ := chunkSeq_spec B n hB n.toNat 0 (fsTell st fd)
    (le_of_lt hn) (by rw [Int.toNat_of_nonneg (le_of_lt hn)]; omega)
  rw [htr]
  refine ⟨i4 hn, i3, ?_, i2, ?_, by rw [i6]; omega, ?_⟩
  · intro ch hch
    obtain ⟨a1, a2, a3, a4, a5, a6, a7, a8⟩ := i1 ch hch
    have hm0 := Int.emod_nonneg ch.cursor (ne_of_gt hB)
    have hsrc : ch.src = ch.cursor - fsTell st fd := by omega
    refine ⟨a1, a2, hsrc, by rw [← hsrc]; exact a4, a5, by omega, a6, ?_⟩
    intro p h1 h2
    rw [a1, a2]
    exact block_of_pos B _ _ hB h1 (by omega)
  · intro p
    constructor
    · rintro ⟨h1, h2⟩
      exact i5 p h1 (by omega)
    · rintro ⟨ch, hch, h1, h2⟩
      obtain ⟨-, -, -, -, -, -, a7, a8⟩ := i1 ch hch
      exact ⟨by omega, by omega⟩
  · intro e1 e2 e3
    subst e1 e3
    rw [e2]
    decide

theorem fsWrite_chunks_witness :
    (0 : Int) < 512 ∧ ValidFd st400 5 ∧ 0 ≤ fsTell st400 5 ∧ (0 : Int) < 600 ∧
      fsTell st400 5 + 600 ≤ 2147483647 ∧
      (fsWrite 512 st400 5 600 bufA).aborts ≠ some .EDISKFULL ∧
      fsWriteTrace 512 st400 5 600 bufA = [⟨400, 0, 400, 112, 0⟩, ⟨512, 1, 0, 488, 112⟩] :=
  ⟨by decide, by decide, by decide, by decide, by decide, by decide,
    (fsWrite_chunks 512 st400 5 600 bufA (by decide) (by decide) (by decide) (by decide)
      (by decide) (by decide) (by decide)).2.2.2.2.2.2 rfl (by decide) rfl⟩

/-! ## Writing: the bytes on the device -/

theorem rmw_disk (B : Int) (buf : Int → Int) (st : State) (dbn off src t d i : Int) :
    (rmw B buf st dbn off src t).disk d i =
      if d = dbn ∧ 0 ≤ i ∧ i < B then
        (if off ≤ i ∧ i < off + t then buf (src + (i - off)) else st.disk dbn i)
      else st.disk d i := by
  simp only [rmw, bioWrite, memcpy, bioRead, memset]
  by_cases h : d = dbn ∧ 0 ≤ i ∧ i < B
  · rw [if_pos h, if_pos h, if_pos h.2]
  · rw [if_neg h, if_neg h]

/-- What the lookup-or-allocate step does when it finds or gets a block. -/
theorem ensureBlock_spec (st : State) (inum f : Int) (hok : BlocksOk st inum)
    (hd : ¬ (ensureBlock st inum f).1 < 0) :
    BlocksOk (ensureBlock st inum f).2 inum ∧
      (ensureBlock st inum f).2.fbnToDbn inum f = (ensureBlock st inum f).1 ∧
      (∀ g, 0 ≤ st.fbnToDbn inum g →
        (ensureBlock st inum f).2.fbnToDbn inum g = st.fbnToDbn inum g) ∧
      (ensureBlock st inum f).2.disk = st.disk := by
  obtain ⟨inj, nd, nm⟩ := hok
  unfold ensureBlock at hd ⊢
  unfold bfsFbnToDbn at hd ⊢
  by_cases hm : st.fbnToDbn inum f < 0
  · rw [if_pos hm] at hd ⊢
    unfold bfsAllocBlock at hd ⊢
    cases hfree : st.free with
    | nil =>
      rw [hfree] at hd
      exact absurd (show (-1 : Int) < 0 by decide) hd
    | cons d rest =>
      rw [hfree] at nd nm
      have hdr : d ∉ rest := (List.nodup_cons.mp nd).1
      refine ⟨⟨?_, (List.nodup_cons.mp nd).2, ?_⟩, ?_, ?_, rfl⟩
      · intro g1 g2 h1 h2
        simp only [true_and] at h1 h2
        by_cases e1 : g1 = f
        · by_cases e2 : g2 = f
          · rw [e1, e2]
          · rw [if_pos e1, if_neg e2] at h2
            exact absurd h2.symm (nm d (List.mem_cons_self _ _) g2)
        · by_cases e2 : g2 = f
          · rw [if_neg e1, if_pos e2] at h2
            exact absurd h2 (nm d (List.mem_cons_self _ _) g1)
          · rw [if_neg e1] at h1
            rw [if_neg e1, if_neg e2] at h2
            exact inj g1 g2 h1 h2
      · intro d1 hd1 g
        simp only [true_and]
        by_cases e : g = f
        · rw [if_pos e]
          intro h
          exact hdr (h ▸ hd1)
        · rw [if_neg e]
          exact nm d1 (List.mem_cons_of_mem _ hd1) g
      · simp only [true_and, if_true]
      · intro g hg
        simp only [true_and]
        by_cases e : g = f
        · rw [e] at hg
          omega
        · rw [if_neg e]
  · rw [if_neg hm]
    exact ⟨⟨inj, nd, nm⟩, rfl, fun _ _ => rfl, rfl⟩

/-- Two positions in the same block at the same offset are the same. -/
theorem pos_eq_of_div_mod {B p q : Int} (h1 : p / B = q / B) (h2 : p % B = q % B) : p = q := by
  have e1 := Int.emod_add_ediv p B
  have e2 := Int.emod_add_ediv q B
  rw [h1, h2] at e1
  omega

/-- What the loop of `fsWrite` leaves on the device, from any pass on, when
the block map and the free list fit together: the map keeps the blocks it
had, the positions still owed hold the bytes of the buffer, and no other byte
of the device changes. -/
theorem fsWriteLoop_disk (B inum numb : Int) (buf : Int → Int)
    (hB : 0 < B) (hB32 : B ≤ 2147483647) (hn32 : numb ≤ 2147483647) :
    ∀ (fuel : Nat) (st : State) (w cur : Int) (v : Int × Int) (st1 : State),
      0 ≤ w → w ≤ numb → 0 ≤ cur → cur + (numb - w) ≤ 2147483647 → BlocksOk st inum →
      fsWriteLoop B inum numb buf fuel st w cur = .ok v st1 →
      BlocksOk st1 inum ∧
      (∀ f, 0 ≤ st.fbnToDbn inum f → st1.fbnToDbn inum f = st.fbnToDbn inum f) ∧
      (∀ p, cur ≤ p → p < cur + (numb - w) →
        0 ≤ st1.fbnToDbn inum (p / B) ∧
        st1.disk (st1.fbnToDbn inum (p / B)) (p % B) = buf (w + (p - cur))) ∧
      (∀ d i, (∀ p, cur ≤ p → p < cur + (numb - w) →
          ¬ (st1.fbnToDbn inum (p / B) = d ∧ p % B = i)) →
        st1.disk d i = st.disk d i) := by
  intro fuel
  induction fuel with
  | zero =>
    intro st w cur v st1 _ hwn _ _ hok h
    simp only [fsWriteLoop] at h
    split at h
    · cases h
    · injection h with _ hs
      subst hs
      exact ⟨hok, fun _ _ => rfl, fun p h1 h2 => by omega, fun _ _ _ => rfl⟩
  | succ fuel ih =>
    intro st w cur v st1 hw0 hwn hc hend hok h
    by_cases hw : w < numb
    · rw [fsWriteLoop_succ B inum numb buf fuel st w cur hB hB32 hn32 hw0 hw hc hend] at h
      by_cases hd : (ensureBlock st inum (cur / B)).1 < 0
      · rw [if_pos hd] at h
        cases h
      · rw [if_neg hd] at h
        have hp := chunkLen_pos B _ w cur hB hw
        have hr := chunkLen_le_right B numb w cur
        have hl := chunkLen_le_left B numb w cur
        have hm0 := Int.emod_nonneg cur (ne_of_gt hB)
        have hm1 := Int.emod_lt_of_pos cur hB
        obtain ⟨e1, e2, e3, e4⟩ := ensureBlock_spec st inum (cur / B) hok hd
        -- the state after this pass
        have hok1 : BlocksOk (rmw B buf (ensureBlock st inum (cur / B)).2
            (ensureBlock st inum (cur / B)).1 (cur % B) w (chunkLen B numb w cur)) inum := e1
        obtain ⟨j1, j2, j3, j4⟩ := ih _ (w + chunkLen B numb w cur)
          (cur + chunkLen B numb w cur) v st1 (by omega) (by omega) (by omega) (by omega) hok1 h
        -- the block of this pass keeps its device block to the end
        have hd0 : st1.fbnToDbn inum (cur / B) = (ensureBlock st inum (cur / B)).1 := by
          rw [← e2]
          exact j2 (cur / B) (by
            show 0 ≤ (ensureBlock st inum (cur / B)).2.fbnToDbn inum (cur / B)
            rw [e2]; omega)
        refine ⟨j1, ?_, ?_, ?_⟩
        · intro f hf
          have h1 := e3 f hf
          rw [← h1]
          exact j2 f (by
            show 0 ≤ (ensureBlock st inum (cur / B)).2.fbnToDbn inum f
            rw [h1]; exact hf)
        · intro p h1 h2
          by_cases hp1 : p < cur + chunkLen B numb w cur
          · obtain ⟨b1, b2⟩ := block_of_pos B cur p hB h1 (by omega)
            rw [b1, hd0]
            refine ⟨by omega, ?_⟩
            rw [j4 _ (p % B) (by
              intro q q1 q2 hq
              obtain ⟨q3, q4⟩ := hq
              rw [← hd0] at q3
              have hq0 : 0 ≤ st1.fbnToDbn inum (q / B) := (j3 q q1 (by omega)).1
              have := j1.1 (q / B) (cur / B) hq0 q3
              have hpq : q = p := pos_eq_of_div_mod (by rw [this, b1]) q4
              omega)]
            rw [rmw_disk, if_pos ⟨rfl, by omega, by omega⟩, if_pos ⟨by omega, by omega⟩]
            congr 1
            omega
          · obtain ⟨b1, b2⟩ := j3 p (by omega) (by omega)
            refine ⟨b1, ?_⟩
            rw [b2]
            congr 1
            omega
        · intro d i hdi
          rw [j4 d i (fun q q1 q2 => hdi q (by omega) (by omega))]
          rw [rmw_disk]
          by_cases hc1 : d = (ensureBlock st inum (cur / B)).1 ∧ 0 ≤ i ∧ i < B
          · rw [if_pos hc1]
            by_cases hc2 : cur % B ≤ i ∧ i < cur % B + chunkLen B numb w cur
            · exfalso
              obtain ⟨b1, b2⟩ := block_of_pos B cur (cur + (i - cur % B)) hB
                (by omega) (by omega)
              exact hdi (cur + (i - cur % B)) (by omega) (by omega)
                ⟨by rw [b1, hd0]; exact hc1.1.symm, by omega⟩
            · rw [if_neg hc2, e4, hc1.1]
          · rw [if_neg hc1, e4]
    · rw [fsWriteLoop_of_ge _ _ _ _ _ _ _ _ hw] at h
      injection h with _ hs
      subst hs
      exact ⟨hok, fun _ _ => rfl, fun p h1 h2 => by omega, fun _ _ _ => rfl⟩

theorem fsWriteFinish_disk (st : State) (inum cursor : Int) :
    (fsWriteFinish st inum cursor).disk = st.disk := by
  simp only [fsWriteFinish, apply_ite State.disk, bfsSetSize, bfsSetCursor, ite_self]

theorem fsWriteFinish_fbnToDbn (st : State) (inum cursor : Int) :
    (fsWriteFinish st inum cursor).fbnToDbn = st.fbnToDbn := by
  simp only [fsWriteFinish, apply_ite State.fbnToDbn, bfsSetSize, bfsSetCursor, ite_self]

theorem fsWriteFinish_free (st : State) (inum cursor : Int) :
    (fsWriteFinish st inum cursor).free = st.free := by
  simp only [fsWriteFinish, apply_ite State.free, bfsSetSize, bfsSetCursor, ite_self]

/-- C4: after a successful `fsWrite` of `n` bytes of `buf` at cursor `c ≥ 0`
(valid descriptor, `c + n` an `i32`, block map and free list fitting
together): every position `p` of `[c, c + n)` holds `buf[p - c]`; a position
`p` outside `[c, c + n)` in a file block the write touched holds the byte its
device block held before the write (the block it was mapped to before, when
it was mapped); a block mapped before keeps its device block; every device
block that no touched file block is mapped to is unchanged; and the block map
and the free list still fit together. -/
theorem fsWrite_frame (B : Int) (st st1 : State) (fd n r : Int) (buf : Int → Int)
    (hB : 0 < B) (hB32 : B ≤ 2147483647) (hfd : ValidFd st fd)
    (hc : 0 ≤ fsTell st fd) (hend : fsTell st fd + n ≤ 2147483647)
    (hok : BlocksOk st (bfsFdToInum st fd))
    (hw : fsWrite B st fd n buf = .ok r st1) :
    (∀ p, fsTell st fd ≤ p → p < fsTell st fd + n →
      st1.disk (bfsFbnToDbn st1 (bfsFdToInum st fd) (p / B)) (p % B)
        = buf (p - fsTell st fd)) ∧
    (∀ p q, fsTell st fd ≤ q → q < fsTell st fd + n → p / B = q / B →
      ¬ (fsTell st fd ≤ p ∧ p < fsTell st fd + n) →
      st1.disk (bfsFbnToDbn st1 (bfsFdToInum st fd) (p / B)) (p % B)
          = st.disk (bfsFbnToDbn st1 (bfsFdToInum st fd) (p / B)) (p % B) ∧
        (0 ≤ bfsFbnToDbn st (bfsFdToInum st fd) (p / B) →
          st1.disk (bfsFbnToDbn st1 (bfsFdToInum st fd) (p / B)) (p % B)
            = st.disk (bfsFbnToDbn st (bfsFdToInum st fd) (p / B)) (p % B))) ∧
    (∀ f, 0 ≤ bfsFbnToDbn st (bfsFdToInum st fd) f →
      bfsFbnToDbn st1 (bfsFdToInum st fd) f = bfsFbnToDbn st (bfsFdToInum st fd) f) ∧
    (∀ d, (∀ q, fsTell st fd ≤ q → q < fsTell st fd + n →
        bfsFbnToDbn st1 (bfsFdToInum st fd) (q / B) ≠ d) →
      ∀ i, st1.disk d i = st.disk d i) ∧
    BlocksOk st1 (bfsFdToInum st fd) := by
  rw [fsWrite_eq_of_valid B st fd n buf hfd] at hw
  cases hl : fsWriteLoop B (bfsFdToInum st fd) n buf n.toNat st 0 (fsTell st fd) with
  | fatal e => rw [hl] at hw; cases hw
  | timeout => rw [hl] at hw; cases hw
  | ok v st2 =>
    rw [hl] at hw
    simp only [Res.andThen] at hw
    injection hw with _ hs
    have hdisk : st1.disk = st2.disk := by
      rw [← hs]; exact fsWriteFinish_disk _ _ _
    have hmap : st1.fbnToDbn = st2.fbnToDbn := by
      rw [← hs]; exact fsWriteFinish_fbnToDbn _ _ _
    have hfree : st1.free = st2.free := by
      rw [← hs]; exact fsWriteFinish_free _ _ _
    unfold bfsFbnToDbn BlocksOk
    rw [hdisk, hmap, hfree]
    by_cases hn : n ≤ 0
    · rw [fsWriteLoop_of_ge _ _ _ _ _ _ _ _ (by omega)] at hl
      injection hl with _ hs2
      subst hs2
      exact ⟨fun p h1 h2 => by omega, fun p q h1 h2 => by omega, fun _ _ => rfl,
        fun _ _ _ => rfl, hok⟩
    · obtain ⟨j1, j2, j3, j4⟩ := fsWriteLoop_disk B (bfsFdToInum st fd) n buf hB hB32
        (by omega) n.toNat st 0 (fsTell st fd) v st2 (le_refl 0) (by omega) hc (by omega) hok hl
      simp only [sub_zero, zero_add] at j3 j4
      have hout : ∀ p q, fsTell st fd ≤ q → q < fsTell st fd + n → p / B = q / B →
          ¬ (fsTell st fd ≤ p ∧ p < fsTell st fd + n) →
          st2.disk (st2.fbnToDbn (bfsFdToInum st fd) (p / B)) (p % B)
            = st.disk (st2.fbnToDbn (bfsFdToInum st fd) (p / B)) (p % B) := by
        intro p q q1 q2 hpq hp
        apply j4
        intro x x1 x2 hx
        obtain ⟨x3, x4⟩ := hx
        have hx0 : 0 ≤ st2.fbnToDbn (bfsFdToInum st fd) (x / B) := (j3 x x1 x2).1
        have hxp := j1.1 (x / B) (p / B) hx0 x3
        have : x = p := pos_eq_of_div_mod hxp x4
        subst this
        exact hp ⟨x1, x2⟩
      refine ⟨fun p h1 h2 => (j3 p h1 h2).2, ?_, j2, ?_, j1⟩
      · intro p q q1 q2 hpq hp
        refine ⟨hout p q q1 q2 hpq hp, ?_⟩
        intro hm
        rw [hout p q q1 q2 hpq hp, j2 _ hm]
      · intro d hd i
        apply j4
        intro x x1 x2 hx
        exact hd x x1 x2 hx.1

theorem blocksOk_st400 : BlocksOk st400 0 := by
  refine ⟨?_, by decide, ?_⟩
  · intro f g h
    exact absurd h (show ¬ (0 : Int) ≤ -1 by decide)
  · intro d hd f h
    have h1 : (-1 : Int) = d := h
    subst h1
    exact absurd hd (by decide)

theorem fsWrite_frame_witness :
    (0 : Int) < 512 ∧ ValidFd st400 5 ∧ 0 ≤ fsTell st400 5 ∧
      BlocksOk st400 (bfsFdToInum st400 5) ∧
      fsWrite 512 st400 5 600 bufA = .ok 600 st400w ∧
      (∀ p, fsTell st400 5 ≤ p → p < fsTell st400 5 + 600 →
        st400w.disk (bfsFbnToDbn st400w (bfsFdToInum st400 5) (p / 512)) (p % 512)
          = bufA (p - fsTell st400 5)) ∧
      (∀ d, (∀ q, fsTell st400 5 ≤ q → q < fsTell st400 5 + 600 →
          bfsFbnToDbn st400w (bfsFdToInum st400 5) (q / 512) ≠ d) →
        ∀ i, st400w.disk d i = st400.disk d i) :=
  ⟨by decide, by decide, by decide, blocksOk_st400, rfl,
    (fsWrite_frame 512 st400 st400w 5 600 600 bufA (by decide) (by decide) (by decide)
      (by decide) (by decide) blocksOk_st400 rfl).1,
    (fsWrite_frame 512 st400 st400w 5 600 600 bufA (by decide) (by decide) (by decide)
      (by decide) (by decide) blocksOk_st400 rfl).2.2.2.1⟩

/-! ## Writing: two writes and one -/

theorem rmw_eq (B : Int) (buf : Int → Int) (st : State) (dbn off src t : Int) :
    rmw B buf st dbn off src t =
      { st with disk := fun d i =>
          if d = dbn ∧ 0 ≤ i ∧ i < B then
            (if off ≤ i ∧ i < off + t then buf (src + (i - off)) else st.disk dbn i)
          else st.disk d i } := by
  have h := rmw_disk B buf st dbn off src t
  have h2 : (rmw B buf st dbn off src t).disk = fun d i =>
      if d = dbn ∧ 0 ≤ i ∧ i < B then
        (if off ≤ i ∧ i < off + t then buf (src + (i - off)) else st.disk dbn i)
      else st.disk d i := by
    funext d i
    exact h d i
  rw [← h2]
  rfl

/-- The bytes of the buffer outside the chunk do not matter. -/
theorem rmw_congr (B : Int) (b b1 : Int → Int) (st : State) (dbn off src src1 t : Int)
    (h : ∀ k, 0 ≤ k → k < t → b (src + k) = b1 (src1 + k)) :
    rmw B b st dbn off src t = rmw B b1 st dbn off src1 t := by
  rw [rmw_eq, rmw_eq]
  congr 1
  funext d i
  by_cases h1 : d = dbn ∧ 0 ≤ i ∧ i < B
  · rw [if_pos h1, if_pos h1]
    by_cases h2 : off ≤ i ∧ i < off + t
    · rw [if_pos h2, if_pos h2]
      exact h (i - off) (by omega) (by omega)
    · rw [if_neg h2, if_neg h2]
  · rw [if_neg h1, if_neg h1]

/-- Two chunks one after the other in a block are one chunk. -/
theorem rmw_rmw (B : Int) (b : Int → Int) (st : State) (dbn off src t1 t2 : Int)
    (h1 : 0 ≤ t1) (h2 : 0 ≤ t2) :
    rmw B b (rmw B b st dbn off src t1) dbn (off + t1) (src + t1) t2
      = rmw B b st dbn off src (t1 + t2) := by
  rw [rmw_eq B b (rmw B b st dbn off src t1), rmw_eq B b st dbn off src (t1 + t2)]
  rw [rmw_eq B b st dbn off src t1]
  simp only
  congr 1
  funext d i
  split_ifs <;> first
    | rfl
    | (exfalso; omega)
    | (congr 1; omega)
    | simp_all

theorem ensureBlock_map (st : State) (inum f : Int) (hd : ¬ (ensureBlock st inum f).1 < 0) :
    (ensureBlock st inum f).2.fbnToDbn inum f = (ensureBlock st inum f).1 := by
  unfold ensureBlock bfsFbnToDbn at hd ⊢
  by_cases hm : st.fbnToDbn inum f < 0
  · rw [if_pos hm] at hd ⊢
    unfold bfsAllocBlock at hd ⊢
    cases hfree : st.free with
    | nil =>
      rw [hfree] at hd
      exact absurd (show (-1 : Int) < 0 by decide) hd
    | cons d rest => simp only [true_and, if_true]
  · rw [if_neg hm]

theorem ensureBlock_of_mapped (st : State) (inum f : Int) (h : 0 ≤ st.fbnToDbn inum f) :
    ensureBlock st inum f = (st.fbnToDbn inum f, st) := by
  unfold ensureBlock bfsFbnToDbn
  rw [if_neg (not_lt.mpr h)]

/-- With passes enough for the bytes owed, the number of passes allowed does
not matter. -/
theorem fsWriteLoop_fuel (B inum numb : Int) (buf : Int → Int)
    (hB : 0 < B) (hB32 : B ≤ 2147483647) (hn32 : numb ≤ 2147483647) :
    ∀ (f1 f2 : Nat) (st : State) (w cur : Int), 0 ≤ w → w ≤ numb → 0 ≤ cur →
      cur + (numb - w) ≤ 2147483647 → numb - w ≤ f1 → numb - w ≤ f2 →
      fsWriteLoop B inum numb buf f1 st w cur = fsWriteLoop B inum numb buf f2 st w cur := by
  intro f1
  induction f1 with
  | zero =>
    intro f2 st w cur _ hwn _ _ h1 _
    have hw : ¬ w < numb := by omega
    rw [fsWriteLoop_of_ge _ _ _ _ _ _ _ _ hw, fsWriteLoop_of_ge _ _ _ _ _ _ _ _ hw]
  | succ f1 ih =>
    intro f2 st w cur hw0 hwn hc hend h1 h2
    by_cases hw : w < numb
    · cases f2 with
      | zero => exact absurd h2 (by push_cast; omega)
      | succ f2 =>
        rw [fsWriteLoop_succ B inum numb buf f1 st w cur hB hB32 hn32 hw0 hw hc hend,
          fsWriteLoop_succ B inum numb buf f2 st w cur hB hB32 hn32 hw0 hw hc hend]
        by_cases hd : (ensureBlock st inum (cur / B)).1 < 0
        · rw [if_pos hd, if_pos hd]
        · rw [if_neg hd, if_neg hd]
          have hp := chunkLen_pos B _ w cur hB hw
          have hr := chunkLen_le_right B numb w cur
          exact ih f2 _ _ _ (by omega) (by omega) (by omega) (by omega)
            (by push_cast at h1; omega) (by push_cast at h2; omega)
    · rw [fsWriteLoop_of_ge _ _ _ _ _ _ _ _ hw, fsWriteLoop_of_ge _ _ _ _ _ _ _ _ hw]

theorem fsWriteBody_setMeta (B inum numb : Int) (buf : Int → Int) (st : State)
    (g : Int → OFTE) (sz : Int → Int) (w cur : Int) :
    fsWriteBody B inum numb buf (setMeta st g sz) w cur
      = (fsWriteBody B inum numb buf st w cur).mapSt (fun s => setMeta s g sz) := by
  unfold fsWriteBody
  simp only [bfsFbnToDbn, bfsAllocBlock, setMeta]
  by_cases h : st.fbnToDbn inum (Int.tdiv cur B) < 0
  · simp only [if_pos h]
    cases hf : st.free with
    | nil => simp [Res.mapSt]
    | cons d rest =>
      simp only
      by_cases hd : d < 0
      · simp [hd, Res.mapSt]
      · simp only [if_neg hd]
        rfl
  · simp only [if_neg h]
    rfl

theorem fsWriteLoop_setMeta (B inum numb : Int) (buf : Int → Int)
    (g : Int → OFTE) (sz : Int → Int) :
    ∀ (fuel : Nat) (st : State) (w cur : Int),
      fsWriteLoop B inum numb buf fuel (setMeta st g sz) w cur
        = (fsWriteLoop B inum numb buf fuel st w cur).mapSt (fun s => setMeta s g sz) := by
  intro fuel
  induction fuel with
  | zero =>
    intro st w cur
    simp only [fsWriteLoop]
    split <;> rfl
  | succ fuel ih =>
    intro st w cur
    simp only [fsWriteLoop]
    by_cases hw : w < numb
    · simp only [if_pos hw, fsWriteBody_setMeta]
      cases hb : fsWriteBody B inum numb buf st w cur with
      | ok v s1 =>
        obtain ⟨ch, bw, c1⟩ := v
        simp only [Res.mapSt]
        exact ih s1 bw c1
      | fatal e => rfl
      | timeout => rfl
    · simp only [if_neg hw]
      rfl

theorem chunkLen_shift (B n1 n2 w cur : Int) :
    chunkLen B (n1 + n2) (n1 + w) cur = chunkLen B n2 w cur := by
  unfold chunkLen
  congr 1
  omega

/-- The second of two writes is the tail of the loop of the single write. -/
theorem fsWriteLoop_shift (B inum n1 n2 : Int) (b b2 : Int → Int)
    (hB : 0 < B) (hB32 : B ≤ 2147483647) (hn1 : 0 ≤ n1) (hN : n1 + n2 ≤ 2147483647)
    (hb : ∀ i, 0 ≤ i → b (n1 + i) = b2 i) :
    ∀ (fuel : Nat) (st : State) (w cur : Int), 0 ≤ w → w ≤ n2 → 0 ≤ cur →
      cur + (n2 - w) ≤ 2147483647 →
      fsWriteLoop B inum (n1 + n2) b fuel st (n1 + w) cur
        = (fsWriteLoop B inum n2 b2 fuel st w cur).mapVal (fun v => (n1 + v.1, v.2)) := by
  intro fuel
  induction fuel with
  | zero =>
    intro st w cur _ _ _ _
    simp only [fsWriteLoop]
    by_cases hw : w < n2
    · rw [if_pos hw, if_pos (by omega)]; rfl
    · rw [if_neg hw, if_neg (by omega)]; rfl
  | succ fuel ih =>
    intro st w cur hw0 hwn hc hend
    by_cases hw : w < n2
    · rw [fsWriteLoop_succ B inum (n1 + n2) b fuel st (n1 + w) cur hB hB32 hN (by omega)
          (by omega) hc (by omega),
        fsWriteLoop_succ B inum n2 b2 fuel st w cur hB hB32 (by omega) hw0 hw hc hend,
        chunkLen_shift]
      by_cases hd : (ensureBlock st inum (cur / B)).1 < 0
      · rw [if_pos hd, if_pos hd]; rfl
      · rw [if_neg hd, if_neg hd]
        have hp := chunkLen_pos B _ w cur hB hw
        have hr := chunkLen_le_right B n2 w cur
        rw [rmw_congr B b b2 _ _ _ (n1 + w) w _ (fun k hk _ => by
          rw [add_assoc]; exact hb (w + k) (by omega)), add_assoc]
        exact ih _ _ _ (by omega) (by omega) (by omega) (by omega)
    · rw [fsWriteLoop_of_ge _ _ _ _ _ _ _ _ (by omega : ¬ n1 + w < n1 + n2),
        fsWriteLoop_of_ge _ _ _ _ _ _ _ _ hw]
      rfl

/-- The loop of one write of `n1 + n2` bytes is the loop of a write of the
first `n1` bytes followed by the rest of the loop. -/
theorem fsWriteLoop_merge (B inum n1 n2 : Int) (b b1 : Int → Int)
    (hB : 0 < B) (hB32 : B ≤ 2147483647) (hn2 : 0 ≤ n2) (hN : n1 + n2 ≤ 2147483647)
    (hb : ∀ i, 0 ≤ i → i < n1 → b i = b1 i) :
    ∀ (fA f fB : Nat) (st : State) (w cur : Int), 0 ≤ w → w ≤ n1 → 0 ≤ cur →
      cur + (n1 + n2 - w) ≤ 2147483647 → n1 - w ≤ fA → n1 + n2 - w ≤ f → n2 ≤ fB →
      fsWriteLoop B inum (n1 + n2) b f st w cur
        = (fsWriteLoop B inum n1 b1 fA st w cur).andThen
            (fun v s1 => fsWriteLoop B inum (n1 + n2) b fB s1 v.1 v.2) := by
  intro fA
  induction fA with
  | zero =>
    intro f fB st w cur hw0 hwn hc hend hA hf hfB
    have hw : ¬ w < n1 := by omega
    rw [fsWriteLoop_of_ge _ _ _ _ _ _ _ _ hw]
    simp only [Res.andThen]
    exact fsWriteLoop_fuel B inum (n1 + n2) b hB hB32 hN f fB st w cur hw0 (by omega) hc hend
      hf (by omega)
  | succ fA ih =>
    intro f fB st w cur hw0 hwn hc hend hA hf hfB
    by_cases hw : w < n1
    · cases f with
      | zero => exact absurd hf (by push_cast; omega)
      | succ f =>
        rw [fsWriteLoop_succ B inum (n1 + n2) b f st w cur hB hB32 hN hw0 (by omega) hc hend,
          fsWriteLoop_succ B inum n1 b1 fA st w cur hB hB32 (by omega) hw0 hw hc (by omega)]
        by_cases hd : (ensureBlock st inum (cur / B)).1 < 0
        · rw [if_pos hd, if_pos hd]; rfl
        · rw [if_neg hd, if_neg hd]
          have hm0 := Int.emod_nonneg cur (ne_of_gt hB)
          have hm1 := Int.emod_lt_of_pos cur hB
          have hpA := chunkLen_pos B _ w cur hB hw
          have hrA := chunkLen_le_right B n1 w cur
          have hlA := chunkLen_le_left B n1 w cur
          have hcong : rmw B b (ensureBlock st inum (cur / B)).2 (ensureBlock st inum (cur / B)).1
              (cur % B) w (chunkLen B n1 w cur)
              = rmw B b1 (ensureBlock st inum (cur / B)).2 (ensureBlock st inum (cur / B)).1
                (cur % B) w (chunkLen B n1 w cur) :=
            rmw_congr B b b1 _ _ _ w w _ (fun k hk1 hk2 => hb (w + k) (by omega) (by omega))
          by_cases hst : chunkLen B (n1 + n2) w cur = chunkLen B n1 w cur
          · rw [hst, hcong]
            exact ih f fB _ _ _ (by omega) (by omega) (by omega) (by omega)
              (by push_cast at hA; omega) (by push_cast at hf; omega) hfB
          · -- the chunk of the single write runs over the end of the first write
            have hA1 : chunkLen B n1 w cur = n1 - w := by
              unfold chunkLen at hst ⊢
              simp only [min_def] at hst ⊢
              split_ifs at hst ⊢ <;> omega
            have hlt : n1 - w < B - cur % B := by
              unfold chunkLen at hst
              simp only [min_def] at hst
              split_ifs at hst <;> omega
            have hn2 : 0 < n2 := by
              unfold chunkLen at hst
              simp only [min_def] at hst
              split_ifs at hst <;> omega
            obtain ⟨q1, q2⟩ := block_of_pos B cur (cur + (n1 - w)) hB (by omega)
              (by omega)
            have hS : chunkLen B (n1 + n2) w cur
                = (n1 - w) + chunkLen B (n1 + n2) n1 (cur + (n1 - w)) := by
              unfold chunkLen
              rw [q2]
              simp only [min_def]
              split_ifs <;> omega
            have hp2 := chunkLen_pos B (n1 + n2) n1 (cur + (n1 - w))
              hB (by omega)
            have hr2 := chunkLen_le_right B (n1 + n2) n1 (cur + (n1 - w))
            rw [hA1]
            rw [fsWriteLoop_of_ge B inum n1 b1 fA _ (w + (n1 - w)) (cur + (n1 - w)) (by omega)]
            simp only [Res.andThen]
            cases fB with
            | zero => exact absurd hfB (by push_cast; omega)
            | succ fB =>
              have e1 : w + (n1 - w) = n1 := by omega
              rw [e1]
              rw [fsWriteLoop_succ B inum (n1 + n2) b fB _ n1 (cur + (n1 - w)) hB hB32 hN
                (by omega) (by omega) (by omega) (by omega)]
              have hmap : (rmw B b1 (ensureBlock st inum (cur / B)).2
                  (ensureBlock st inum (cur / B)).1 (cur % B) w (n1 - w)).fbnToDbn inum (cur / B)
                  = (ensureBlock st inum (cur / B)).1 := ensureBlock_map st inum (cur / B) hd
              have hens : ensureBlock (rmw B b1 (ensureBlock st inum (cur / B)).2
                  (ensureBlock st inum (cur / B)).1 (cur % B) w (n1 - w)) inum (cur / B)
                  = ((ensureBlock st inum (cur / B)).1,
                     rmw B b1 (ensureBlock st inum (cur / B)).2
                      (ensureBlock st inum (cur / B)).1 (cur % B) w (n1 - w)) := by
                rw [ensureBlock_of_mapped _ inum (cur / B) (by rw [hmap]; omega), hmap]
              rw [q1, hens]
              simp only
              rw [if_neg hd, q2, hS]
              rw [hA1] at hcong
              rw [← hcong]
              have e2 : rmw B b (rmw B b (ensureBlock st inum (cur / B)).2
                  (ensureBlock st inum (cur / B)).1 (cur % B) w (n1 - w))
                  (ensureBlock st inum (cur / B)).1 (cur % B + (cur + (n1 - w) - cur)) n1
                  (chunkLen B (n1 + n2) n1 (cur + (n1 - w)))
                  = rmw B b (ensureBlock st inum (cur / B)).2 (ensureBlock st inum (cur / B)).1
                    (cur % B) w (n1 - w + chunkLen B (n1 + n2) n1 (cur + (n1 - w))) := by
                have := rmw_rmw B b (ensureBlock st inum (cur / B)).2
                  (ensureBlock st inum (cur / B)).1 (cur % B) w (n1 - w)
                  (chunkLen B (n1 + n2) n1 (cur + (n1 - w))) (by omega) (by omega)
                rw [← this]
                congr 1 <;> omega
              rw [e2]
              have e3 : w + (n1 - w + chunkLen B (n1 + n2) n1 (cur + (n1 - w)))
                  = n1 + chunkLen B (n1 + n2) n1 (cur + (n1 - w)) := by omega
              have e4 : cur + (n1 - w + chunkLen B (n1 + n2) n1 (cur + (n1 - w)))
                  = cur + (n1 - w) + chunkLen B (n1 + n2) n1 (cur + (n1 - w)) := by omega
              rw [e3, e4]
              exact fsWriteLoop_fuel B inum (n1 + n2) b hB hB32 hN f fB _ _ _ (by omega)
                (by omega) (by omega) (by omega) (by push_cast at hf; omega)
                (by push_cast at hfB; omega)
    · rw [fsWriteLoop_of_ge _ _ _ _ _ _ _ _ hw]
      simp only [Res.andThen]
      exact fsWriteLoop_fuel B inum (n1 + n2) b hB hB32 hN f fB st w cur hw0 (by omega) hc hend
        hf (by omega)

theorem fsWriteFinish_eq (s : State) (inum y : Int) :
    fsWriteFinish s inum y =
      { s with
          g_oft := fun i => if i = s.findOFTE inum then ⟨y⟩ else s.g_oft i
          size := fun i => if i = inum ∧ y > s.size inum then y else s.size i } := by
  unfold fsWriteFinish bfsSetCursor bfsSetSize bfsGetSize bfsFindOFTE
  simp only
  by_cases h : y > s.size inum
  · rw [if_pos h]
    congr 1
    funext i
    by_cases hi : i = inum
    · rw [if_pos hi, if_pos ⟨hi, h⟩]
    · rw [if_neg hi, if_neg (fun hh => hi hh.1)]
  · rw [if_neg h]
    congr 1
    funext i
    rw [if_neg (fun hh => h hh.2)]

theorem fsWriteFinish_setMeta (s : State) (inum y : Int) :
    fsWriteFinish s inum y
      = setMeta s (fsWriteFinish s inum y).g_oft (fsWriteFinish s inum y).size := by
  rw [fsWriteFinish_eq]
  rfl

/-- The last statements of the second write undo nothing and add nothing to
what the last statements of one write of the whole do. -/
theorem fsWriteFinish_twice (s1 s2 : State) (inum x y : Int) (hxy : x ≤ y)
    (ht : SameTables s1 s2) :
    fsWriteFinish (setMeta s2 (fsWriteFinish s1 inum x).g_oft (fsWriteFinish s1 inum x).size)
        inum y
      = fsWriteFinish s2 inum y := by
  obtain ⟨-, t2, t3, t4, -⟩ := ht
  rw [fsWriteFinish_eq, fsWriteFinish_eq s2, fsWriteFinish_eq s1]
  simp only [setMeta, t2, t3, t4]
  congr 1
  · funext i
    by_cases hi : i = s1.findOFTE inum
    · rw [if_pos hi, if_pos hi]
    · rw [if_neg hi, if_neg hi, if_neg hi]
  · funext i
    by_cases hi : i = inum
    · subst hi
      simp only [true_and]
      split_ifs <;> omega
    · rw [if_neg (fun hh => hi hh.1), if_neg (fun hh => hi hh.1), if_neg (fun hh => hi hh.1)]

/-- The counters the loop ends with, and the tables it leaves alone, when it
ends. -/
theorem fsWriteLoop_val (B inum numb : Int) (buf : Int → Int)
    (hB : 0 < B) (hB32 : B ≤ 2147483647) (hn32 : numb ≤ 2147483647)
    (fuel : Nat) (st : State) (w cur : Int) (v : Int × Int) (st1 : State)
    (hw0 : 0 ≤ w) (hwn : w ≤ numb) (hc : 0 ≤ cur) (hend : cur + (numb - w) ≤ 2147483647)
    (hfuel : numb - w ≤ fuel)
    (h : fsWriteLoop B inum numb buf fuel st w cur = .ok v st1) :
    v = (numb, cur + (numb - w)) ∧ SameTables st st1 := by
  obtain ⟨st2, h1, h2⟩ := fsWriteLoop_ok B inum numb buf hB hB32 hn32 fuel st w cur hw0 hwn hc
    hend hfuel (by rw [h]; simp [Res.aborts])
  rw [h] at h1
  injection h1 with h3 h4
  subst h4
  exact ⟨h3, h2⟩

theorem fsTell_fsWriteFinish (st s1 : State) (fd y : Int) (ht : SameTables st s1) :
    fsTell (fsWriteFinish s1 (bfsFdToInum st fd) y) fd = y := by
  rw [fsWriteFinish_eq]
  simp [fsTell, bfsTell, bfsFindOFTE, bfsFdToInum, ht.1, ht.2.1]

/-- C5: on a valid descriptor with cursor `c ≥ 0`, for counts `n1, n2 ≥ 0`
with `c + n1 + n2` an `i32`, writing `n1` bytes of `b1` and then `n2` bytes of
`b2` has the same outcome as one write of `n1 + n2` bytes of `b1` followed by
`b2`: the same final state (device, block map, free list, cursor, size) and
the same total of returned counts, or the same abort. -/
theorem two_writes_eq_one (B : Int) (st : State) (fd n1 n2 : Int) (b1 b2 : Int → Int)
    (hB : 0 < B) (hB32 : B ≤ 2147483647) (hfd : ValidFd st fd)
    (hc : 0 ≤ fsTell st fd) (hn1 : 0 ≤ n1) (hn2 : 0 ≤ n2)
    (hend : fsTell st fd + (n1 + n2) ≤ 2147483647) :
    twoWrites B st fd n1 b1 n2 b2 = fsWrite B st fd (n1 + n2) (bufAppend b1 n1 b2) := by
  have hmerge := fsWriteLoop_merge B (bfsFdToInum st fd) n1 n2 (bufAppend b1 n1 b2) b1 hB hB32
    hn2 (by omega) (fun i _ h => by simp only [bufAppend, if_pos h])
    n1.toNat (n1 + n2).toNat n2.toNat st 0 (fsTell st fd) (le_refl 0) hn1 hc (by omega)
    (by rw [Int.toNat_of_nonneg hn1]; omega)
    (by rw [Int.toNat_of_nonneg (by omega : 0 ≤ n1 + n2)]; omega)
    (by rw [Int.toNat_of_nonneg hn2])
  rw [fsWrite_eq_of_valid B st fd (n1 + n2) _ hfd, hmerge]
  unfold twoWrites
  rw [fsWrite_eq_of_valid B st fd n1 b1 hfd]
  cases hL1 : fsWriteLoop B (bfsFdToInum st fd) n1 b1 n1.toNat st 0 (fsTell st fd) with
  | fatal e => rfl
  | timeout => rfl
  | ok v s1 =>
    obtain ⟨hv, ht1⟩ := fsWriteLoop_val B (bfsFdToInum st fd) n1 b1 hB hB32 (by omega)
      n1.toNat st 0 (fsTell st fd) v s1 (le_refl 0) hn1 hc (by omega)
      (by rw [Int.toNat_of_nonneg hn1]; omega) hL1
    subst hv
    simp only [Res.andThen, sub_zero]
    -- the state between the two writes
    have hfdI : bfsFdToInum (fsWriteFinish s1 (bfsFdToInum st fd) (fsTell st fd + n1)) fd
        = bfsFdToInum st fd := by
      rw [fsWriteFinish_eq]
      simp only [bfsFdToInum, ht1.1]
    have hfO : ∀ i, bfsFindOFTE (fsWriteFinish s1 (bfsFdToInum st fd) (fsTell st fd + n1)) i
        = bfsFindOFTE st i := by
      intro i
      rw [fsWriteFinish_eq]
      simp only [bfsFindOFTE, ht1.2.1]
    have hfd1 : ValidFd (fsWriteFinish s1 (bfsFdToInum st fd) (fsTell st fd + n1)) fd := by
      unfold ValidFd
      rw [hfdI, hfO]
      exact hfd
    have htell : fsTell (fsWriteFinish s1 (bfsFdToInum st fd) (fsTell st fd + n1)) fd
        = fsTell st fd + n1 := fsTell_fsWriteFinish st s1 fd _ ht1
    rw [fsWrite_eq_of_valid B _ fd n2 b2 hfd1, hfdI, htell]
    rw [fsWriteFinish_setMeta s1, fsWriteLoop_setMeta]
    have hshift := fsWriteLoop_shift B (bfsFdToInum st fd) n1 n2 (bufAppend b1 n1 b2) b2 hB hB32
      hn1 (by omega)
      (fun i hi => by
        simp only [bufAppend, if_neg (by omega : ¬ n1 + i < n1)]
        congr 1
        omega)
      n2.toNat s1 0 (fsTell st fd + n1) (le_refl 0) hn2 (by omega) (by omega)
    rw [add_zero] at hshift
    rw [hshift]
    cases hL2 : fsWriteLoop B (bfsFdToInum st fd) n2 b2 n2.toNat s1 0 (fsTell st fd + n1) with
    | fatal e => rfl
    | timeout => rfl
    | ok v2 s2 =>
      obtain ⟨hv2, ht2⟩ := fsWriteLoop_val B (bfsFdToInum st fd) n2 b2 hB hB32 (by omega)
        n2.toNat s1 0 (fsTell st fd + n1) v2 s2 (le_refl 0) hn2 (by omega) (by omega)
        (by rw [Int.toNat_of_nonneg hn2]; omega) hL2
      subst hv2
      simp only [Res.andThen, Res.mapSt, Res.mapVal, sub_zero]
      rw [fsWriteFinish_twice s1 s2 (bfsFdToInum st fd) (fsTell st fd + n1)
        (fsTell st fd + n1 + n2) (by omega) ht2]

theorem two_writes_eq_one_witness :
    (0 : Int) < 512 ∧ ValidFd st400 5 ∧ 0 ≤ fsTell st400 5 ∧ (0 : Int) ≤ 300 ∧
      fsTell st400 5 + (300 + 300) ≤ 2147483647 ∧
      twoWrites 512 st400 5 300 bufA 300 bufZ
        = fsWrite 512 st400 5 (300 + 300) (bufAppend bufA 300 bufZ) :=
  ⟨by decide, by decide, by decide, by decide, by decide,
    two_writes_eq_one 512 st400 5 300 300 bufA bufZ (by decide) (by decide) (by decide)
      (by decide) (by decide) (by decide) (by decide)⟩

/-! ## Seeking: aborts and what is left alone -/

/-- When `fsSeek` returns, the state it ends in is the state it returns. -/
theorem fsSeekEnd_of_ok (st st1 : State) (fd offset whence v : Int)
    (h : fsSeek st fd offset whence = .ok v st1) :
    fsSeekEnd st fd offset whence = st1 := by
  simp only [fsSeek, fsSeekEnd] at h ⊢
  split_ifs at h ⊢ <;> (cases h; rfl)

/-- C11: `fsSeek` aborts exactly when `offset < 0` or `whence` is none of
`SEEK_SET`, `SEEK_CUR`, `SEEK_END`.  A negative offset aborts with `EBADCURS`
for every descriptor and every `whence`, with the state as it was; with
`offset ≥ 0` an unrecognised `whence` aborts with `EBADWHENCE`, with the
state (so the cursor) as it was.  `fsSeek(fd, -1, SEEK_SET)` is fatal for
every descriptor. -/
theorem fsSeek_aborts_iff (st : State) (fd offset whence : Int) :
    ((fsSeek st fd offset whence).aborts ≠ none ↔
      (offset < 0 ∨ ¬ (whence = SEEK_SET ∨ whence = SEEK_CUR ∨ whence = SEEK_END))) ∧
    (offset < 0 →
      fsSeek st fd offset whence = .fatal .EBADCURS ∧ fsSeekEnd st fd offset whence = st) ∧
    (0 ≤ offset → ¬ (whence = SEEK_SET ∨ whence = SEEK_CUR ∨ whence = SEEK_END) →
      fsSeek st fd offset whence = .fatal .EBADWHENCE ∧
        fsSeekEnd st fd offset whence = st) ∧
    fsSeek st fd (-1) SEEK_SET = .fatal .EBADCURS := by
  refine ⟨?_, ?_, ?_, ?_⟩
  · simp only [fsSeek]
    split_ifs <;> simp_all [Res.aborts]
  · intro h
    simp only [fsSeek, fsSeekEnd, if_pos h, and_self]
  · intro h hw
    have h1 : ¬ offset < 0 := not_lt.mpr h
    have h2 : ¬ whence = SEEK_SET := fun e => hw (Or.inl e)
    have h3 : ¬ whence = SEEK_CUR := fun e => hw (Or.inr (Or.inl e))
    have h4 : ¬ whence = SEEK_END := fun e => hw (Or.inr (Or.inr e))
    simp only [fsSeek, fsSeekEnd, if_neg h1, if_neg h2, if_neg h3, if_neg h4, and_self]
  · simp only [fsSeek]
    rfl

theorem fsSeek_aborts_iff_witness :
    (-1 : Int) < 0 ∧
      (fsSeek st1000 5 (-1) 9 = .fatal .EBADCURS ∧ fsSeekEnd st1000 5 (-1) 9 = st1000) ∧
      (0 : Int) ≤ 40 ∧
      ¬ ((9 : Int) = SEEK_SET ∨ (9 : Int) = SEEK_CUR ∨ (9 : Int) = SEEK_END) ∧
      (fsSeek st1000 5 40 9 = .fatal .EBADWHENCE ∧ fsSeekEnd st1000 5 40 9 = st1000) :=
  ⟨by decide, (fsSeek_aborts_iff st1000 5 (-1) 9).2.1 (by decide), by decide, by decide,
    (fsSeek_aborts_iff st1000 5 40 9).2.2.1 (by decide) (by decide)⟩

/-- What `fsSeek` stores when it returns: the cursor of the slot of the
descriptor, and nothing else. -/
theorem fsSeek_frame (st st1 : State) (fd offset whence v : Int)
    (h : fsSeek st fd offset whence = .ok v st1) :
    v = 0 ∧ st1.fdToInum = st.fdToInum ∧ st1.findOFTE = st.findOFTE ∧ st1.size = st.size ∧
      st1.fbnToDbn = st.fbnToDbn ∧ st1.free = st.free ∧ st1.disk = st.disk ∧
      st1.readRet = st.readRet ∧
      ∀ i, i ≠ bfsFindOFTE st (bfsFdToInum st fd) → st1.g_oft i = st.g_oft i := by
  simp only [fsSeek] at h
  split_ifs at h <;>
    (cases h
     exact ⟨rfl, rfl, rfl, rfl, rfl, rfl, rfl, rfl, fun i hi => by simp only [setCurs, if_neg hi]⟩)

theorem fsWriteFinish_size (st s1 : State) (fd y : Int) (ht : SameTables st s1) :
    fsSize (fsWriteFinish s1 (bfsFdToInum st fd) y) fd = max (fsSize st fd) y := by
  rw [fsWriteFinish_eq]
  simp only [fsSize, bfsGetSize, bfsFdToInum, ht.1, ht.2.2.2.1, true_and]
  by_cases h : y > st.size (st.fdToInum fd)
  · rw [if_pos h]
    exact (max_eq_right (le_of_lt h)).symm
  · rw [if_neg h]
    exact (max_eq_left (not_lt.mp h)).symm

/-- C12: on a valid descriptor, with `offset ≥ 0` and a valid `whence`,
`fsSeek` returns 0 and changes nothing but the cursor of that descriptor:
the sizes, the block map, the free list and the device are what they were,
wherever the new cursor lies; the size grows with a following `fsWrite`,
which leaves it at `max s (cursor + n)`. -/
theorem fsSeek_changes_cursor_only (st : State) (fd offset whence : Int)
    (hfd : ValidFd st fd) (hoff : 0 ≤ offset)
    (hwh : whence = SEEK_SET ∨ whence = SEEK_CUR ∨ whence = SEEK_END) :
    ∃ st1, fsSeek st fd offset whence = .ok 0 st1 ∧
      st1.size = st.size ∧ st1.fbnToDbn = st.fbnToDbn ∧ st1.free = st.free ∧
      st1.disk = st.disk ∧ st1.fdToInum = st.fdToInum ∧ st1.findOFTE = st.findOFTE ∧
      (∀ i, i ≠ bfsFindOFTE st (bfsFdToInum st fd) → st1.g_oft i = st.g_oft i) ∧
      fsSize st1 fd = fsSize st fd ∧
      ∀ (B n : Int) (buf : Int → Int), 0 < B → B ≤ 2147483647 → 0 ≤ n →
        0 ≤ fsTell st1 fd → fsTell st1 fd + n ≤ 2147483647 →
        (fsWrite B st1 fd n buf).aborts ≠ some .EDISKFULL →
        ∃ st2, fsWrite B st1 fd n buf = .ok n st2 ∧
          fsSize st2 fd = max (fsSize st fd) (fsTell st1 fd + n) := by
  have hno : ¬ offset < 0 := not_lt.mpr hoff
  have hex : ∃ st1, fsSeek st fd offset whence = .ok 0 st1 := by
    simp only [fsSeek, if_neg hno]
    rcases hwh with h | h | h
    · exact ⟨_, by rw [if_pos h]⟩
    · subst h
      exact ⟨setCurs st (bfsFindOFTE st (bfsFdToInum st fd))
        (wrap32 ((st.g_oft (bfsFindOFTE st (bfsFdToInum st fd))).curs + offset)),
        by simp [SEEK_SET, SEEK_CUR]⟩
    · subst h
      exact ⟨setCurs st (bfsFindOFTE st (bfsFdToInum st fd)) (wrap32 (fsSize st fd + offset)),
        by simp [SEEK_SET, SEEK_CUR, SEEK_END]⟩
  obtain ⟨st1, h1⟩ := hex
  obtain ⟨-, f1, f2, f3, f4, f5, f6, f7, f8⟩ := fsSeek_frame st st1 fd offset whence 0 h1
  have hsz : fsSize st1 fd = fsSize st fd := by
    simp only [fsSize, bfsGetSize, bfsFdToInum, f1, f3]
  refine ⟨st1, h1, f3, f4, f5, f6, f1, f2, f8, hsz, ?_⟩
  intro B n buf hB hB32 hn hc hend hfull
  have hfd1 : ValidFd st1 fd := by
    unfold ValidFd bfsFdToInum bfsFindOFTE
    rw [f1, f2]
    exact hfd
  obtain ⟨s2, ht, -, hw⟩ := fsWrite_ok B st1 fd n buf hB hB32 hfd1 hc hn hend hfull
  exact ⟨_, hw, by rw [fsWriteFinish_size st1 s2 fd _ ht, hsz]⟩

theorem fsSeek_changes_cursor_only_witness :
    ValidFd st1000 5 ∧ (0 : Int) ≤ 5000 ∧
      (SEEK_END = SEEK_SET ∨ SEEK_END = SEEK_CUR ∨ SEEK_END = SEEK_END) ∧
      ∃ st1, fsSeek st1000 5 5000 SEEK_END = .ok 0 st1 ∧
        st1.size = st1000.size ∧ st1.fbnToDbn = st1000.fbnToDbn ∧
        st1.free = st1000.free ∧ st1.disk = st1000.disk ∧ fsSize st1 5 = fsSize st1000 5 :=
  ⟨by decide, by decide, by decide,
    match fsSeek_changes_cursor_only st1000 5 5000 SEEK_END (by decide) (by decide)
        (by decide) with
    | ⟨st1, h1, h2, h3, h4, h5, _, _, _, h9, _⟩ => ⟨st1, h1, h2, h3, h4, h5, h9⟩⟩

/-- C18 (the code departs from it): `fsSeek` makes no check of the two
resolutions.  In `st0` descriptor 2 resolves to inode -3 and descriptor 9 to
inode 4, which has no open-file entry (lookup -1).  `fsSeek` on them does not
abort: it returns 0, and it stores the new cursor in slot -1 of the open-file
table (after reading that slot, for `SEEK_CUR`).  `fsWrite` and `fsRead`
abort on the same descriptors. -/
theorem fsSeek_invalid_fd_writes_slot :
    bfsFdToInum st0 2 < 0 ∧ bfsFindOFTE st0 (bfsFdToInum st0 2) = -1 ∧
      0 ≤ bfsFdToInum st0 9 ∧ bfsFindOFTE st0 (bfsFdToInum st0 9) = -1 ∧
      (st0.g_oft (-1)).curs = 0 ∧
      (fsSeek st0 2 40 SEEK_SET).aborts = none ∧
      (fsSeek st0 2 40 SEEK_SET).val? = some 0 ∧
      ((fsSeek st0 2 40 SEEK_SET).st?).map (fun s => (s.g_oft (-1)).curs) = some 40 ∧
      (fsSeek st0 9 40 SEEK_CUR).aborts = none ∧
      (fsSeek st0 9 40 SEEK_CUR).val? = some 0 ∧
      ((fsSeek st0 9 40 SEEK_CUR).st?).map (fun s => (s.g_oft (-1)).curs) = some 40 ∧
      (fsWrite 512 st0 2 1 bufA).aborts = some .EBADINUM ∧
      (fsWrite 512 st0 9 1 bufA).aborts = some .EOFTFULL ∧
      (fsRead 512 st0 2 1 bufZ).aborts = some .EBADINUM ∧
      (fsRead 512 st0 9 1 bufZ).aborts = some .EOFTFULL := by
  decide

/-! ## The cursors stay non-negative -/

theorem cursorsOk_stMax : CursorsOk stMax := by
  intro i
  simp only [stMax, setCurs, st0]
  split <;> decide

theorem cursorsOk_st1000 : CursorsOk st1000 := by
  intro i
  simp only [st1000, st0]
  decide

/-- C17, as stated, fails: in `stMax` every cursor is non-negative and the
descriptor is valid; `fsSeek(fd, 1, SEEK_CUR)` returns 0 and leaves the cursor
of the descriptor at `-2147483648`. -/
theorem fsSeek_cursor_wraps :
    CursorsOk stMax ∧ ValidFd stMax 5 ∧ (0 : Int) ≤ 1 ∧
      ∃ st1, fsSeek stMax 5 1 SEEK_CUR = .ok 0 st1 ∧ fsTell st1 5 = -2147483648 ∧
        ¬ CursorsOk st1 := by
  refine ⟨cursorsOk_stMax, by decide, by decide,
    setCurs stMax 0 (wrap32 ((stMax.g_oft 0).curs + 1)), rfl, by decide, ?_⟩
  intro h
  exact absurd (h 0) (by decide)

/-- C17, amended: from a state in which every cursor is non-negative, a call
of `fsSeek` (any `offset ≥ 0`), `fsRead` or `fsWrite` that returns leaves
every cursor non-negative, provided the sum the call forms is an `i32`:
`cursor + offset` for `SEEK_CUR`, `size + offset` with `size ≥ 0` for
`SEEK_END`, `cursor + r` for an `fsRead` that returns `r`, and `cursor + numb`
for an `fsWrite` of `numb > 0` bytes (with a block size that is a positive
`i32`). -/
theorem cursors_stay_nonneg (st : State) (hinv : CursorsOk st) :
    (∀ (fd offset whence v : Int) (st1 : State), 0 ≤ offset →
      (whence = SEEK_CUR → I32 (fsTell st fd + offset)) →
      (whence = SEEK_END → 0 ≤ fsSize st fd ∧ I32 (fsSize st fd + offset)) →
      fsSeek st fd offset whence = .ok v st1 → CursorsOk st1) ∧
    (∀ (B fd numb r : Int) (buf buf1 : Int → Int) (st1 : State),
      I32 (fsTell st fd + r) →
      fsRead B st fd numb buf = .ok (r, buf1) st1 → CursorsOk st1) ∧
    (∀ (B fd numb r : Int) (buf : Int → Int) (st1 : State),
      0 < B → B ≤ 2147483647 → (0 < numb → fsTell st fd + numb ≤ 2147483647) →
      fsWrite B st fd numb buf = .ok r st1 → CursorsOk st1) := by
  refine ⟨?_, ?_, ?_⟩
  · intro fd offset whence v st1 hoff hcur hend h
    simp only [fsSeek, if_neg (not_lt.mpr hoff)] at h
    by_cases h1 : whence = SEEK_SET
    · rw [if_pos h1] at h
      cases h
      intro i
      simp only [setCurs]
      split
      · exact hoff
      · exact hinv i
    · rw [if_neg h1] at h
      by_cases h2 : whence = SEEK_CUR
      · rw [if_pos h2] at h
        cases h
        have hr := hcur h2
        simp only [fsTell, bfsTell] at hr
        have hc := hinv (bfsFindOFTE st (bfsFdToInum st fd))
        intro i
        simp only [setCurs]
        split
        · rw [wrap32_of_I32 hr]
          dsimp only
          omega
        · exact hinv i
      · rw [if_neg h2] at h
        by_cases h3 : whence = SEEK_END
        · rw [if_pos h3] at h
          cases h
          obtain ⟨hs, hr⟩ := hend h3
          intro i
          simp only [setCurs]
          split
          · rw [wrap32_of_I32 hr]
            dsimp only
            omega
          · exact hinv i
        · rw [if_neg h3] at h
          cases h
  · intro B fd numb r buf buf1 st1 hr h
    simp only [fsRead] at h
    split at h
    · cases h
    · split at h
      · cases h
      · split at h
        · injection h with _ hs
          subst hs
          exact hinv
        · simp only [bfsRead] at h
          split at h
          · cases h
          · rename_i hneg
            injection h with hv hs
            injection hv with hv1 _
            subst hs
            subst hv1
            simp only [fsTell, bfsTell] at hr
            have hc := hinv (bfsFindOFTE st (bfsFdToInum st fd))
            intro i
            simp only [bfsSetCursor]
            split
            · rw [wrap32_of_I32 hr]
              dsimp only
              omega
            · exact hinv i
  · intro B fd numb r buf st1 hB hB32 hend h
    by_cases hfd : ValidFd st fd
    · rw [fsWrite_eq_of_valid B st fd numb buf hfd] at h
      have hc : 0 ≤ fsTell st fd := hinv _
      cases hl : fsWriteLoop B (bfsFdToInum st fd) numb buf numb.toNat st 0 (fsTell st fd) with
      | fatal e => rw [hl] at h; cases h
      | timeout => rw [hl] at h; cases h
      | ok v s1 =>
        rw [hl] at h
        simp only [Res.andThen] at h
        injection h with _ hs
        have key : 0 ≤ v.2 ∧ SameTables st s1 := by
          by_cases hn : 0 < numb
          · obtain ⟨hv, ht⟩ := fsWriteLoop_val B (bfsFdToInum st fd) numb buf hB hB32
              (by have := hend hn; omega) numb.toNat st 0 (fsTell st fd) v s1 (le_refl 0)
              (le_of_lt hn) hc (by have := hend hn; omega)
              (by rw [Int.toNat_of_nonneg (le_of_lt hn)]; omega) hl
            rw [hv]
            exact ⟨by simp only; omega, ht⟩
          · rw [fsWriteLoop_of_ge _ _ _ _ _ _ _ _ (by omega)] at hl
            injection hl with hv hs1
            rw [← hv, ← hs1]
            exact ⟨hc, SameTables.refl st⟩
        obtain ⟨hv, ht⟩ := key
        rw [← hs, fsWriteFinish_eq]
        intro i
        simp only
        split
        · exact hv
        · rw [ht.2.2.1]
          exact hinv i
    · exfalso
      unfold ValidFd at hfd
      simp only [fsWrite] at h
      split at h
      · cases h
      · split at h
        · cases h
        · apply hfd
          constructor <;> omega

theorem cursors_stay_nonneg_witness :
    CursorsOk st1000 ∧ (0 : Int) ≤ 40 ∧ I32 (fsTell st1000 5 + 40) ∧
      fsSeek st1000 5 40 SEEK_CUR
        = .ok 0 (setCurs st1000 0 (wrap32 ((st1000.g_oft 0).curs + 40))) ∧
      CursorsOk (setCurs st1000 0 (wrap32 ((st1000.g_oft 0).curs + 40))) :=
  ⟨cursorsOk_st1000, by decide, by decide, rfl,
    (cursors_stay_nonneg st1000 cursorsOk_st1000).1 5 40 SEEK_CUR 0 _ (by decide)
      (fun _ => by decide) (fun h => absurd h (by decide)) rfl⟩

/-! ## Newly allocated blocks, and what `fsWrite` returns -/

/-- C13 (the code departs from it): in `st0` the file is empty with no block
and the device holds 7 everywhere.  After `fsSeek(fd, 400, SEEK_SET)` and
`fsWrite(fd, 600, bufA)` with blocks of 512 bytes, file block 0 is newly
allocated (device block 10) and the gap `[0, 400)` in it holds the old device
byte 7, not 0: the zeroed buffer is overwritten by `bioRead` before the copy.
The same holds for every old content `v` of the device. -/
theorem fsWrite_new_block_keeps_device_bytes :
    bfsFbnToDbn st0 0 0 = -1 ∧ fsSize st0 5 = 0 ∧ st0.disk 10 0 = 7 ∧
      (((fsSeek st0 5 400 SEEK_SET).andThen fun _ s => fsWrite 512 s 5 600 bufA).val?)
        = some 600 ∧
      (((fsSeek st0 5 400 SEEK_SET).andThen fun _ s => fsWrite 512 s 5 600 bufA).st?).map
        (fun s => bfsFbnToDbn s 0 0) = some 10 ∧
      (((fsSeek st0 5 400 SEEK_SET).andThen fun _ s => fsWrite 512 s 5 600 bufA).st?).map
        (fun s => s.disk 10 0) = some 7 ∧
      (((fsSeek st0 5 400 SEEK_SET).andThen fun _ s => fsWrite 512 s 5 600 bufA).st?).map
        (fun s => s.disk 10 399) = some 7 ∧
      (((fsSeek st0 5 400 SEEK_SET).andThen fun _ s => fsWrite 512 s 5 600 bufA).st?).map
        (fun s => s.disk 10 400) = some (bufA 0) ∧
      ∀ v : Int,
        (((fsSeek { st0 with disk := fun _ _ => v } 5 400 SEEK_SET).andThen
            fun _ s => fsWrite 512 s 5 600 bufA).st?).map (fun s => s.disk 10 0) = some v :=
  ⟨by decide, by decide, by decide, by decide, by decide, by decide, by decide, by decide,
    fun _ => rfl⟩

/-- C16 (the code departs from it): on a valid descriptor `fsWrite` of 10
bytes succeeds and returns 10, the number of bytes written, not 0. -/
theorem fsWrite_returns_bytes_written :
    ValidFd st1000 5 ∧ (fsWrite 512 st1000 5 10 bufA).aborts = none ∧
      (fsWrite 512 st1000 5 10 bufA).val? = some 10 := by
  decide

/-! ## Descriptors that do not resolve; reading leaves the file alone -/

/-- When `fsRead` returns, the state and buffer it ends with are those it
returns. -/
theorem fsReadEnd_of_ok (B : Int) (st st1 : State) (fd numb : Int) (buf : Int → Int)
    (v : Int × (Int → Int)) (h : fsRead B st fd numb buf = .ok v st1) :
    fsReadEnd B st fd numb buf = (st1, v.2) := by
  simp only [fsRead, fsReadEnd] at h ⊢
  split_ifs at h ⊢ <;> (cases h; rfl)

/-- When `fsWrite` returns, the state it ends in is the state it returns. -/
theorem fsWriteEnd_of_ok (B : Int) (st st1 : State) (fd numb v : Int) (buf : Int → Int)
    (h : fsWrite B st fd numb buf = .ok v st1) :
    fsWriteEnd B st fd numb buf = st1 := by
  simp only [fsWrite, fsWriteEnd] at h ⊢
  split_ifs at h ⊢
  cases hl : fsWriteLoop B (bfsFdToInum st fd) numb buf numb.toNat st 0 (bfsTell st fd) with
  | ok w s1 =>
    rw [hl] at h
    injection h
  | fatal e => rw [hl] at h; cases h
  | timeout => rw [hl] at h; cases h

theorem fsWriteBody_aborts (B inum numb : Int) (buf : Int → Int) (st : State) (w cur : Int)
    (e : Err) (h : (fsWriteBody B inum numb buf st w cur).aborts = some e) :
    e = .EDISKFULL := by
  simp only [fsWriteBody, fsWriteBlock] at h
  split_ifs at h <;> simp_all [Res.aborts]

/-- The loop of `fsWrite` aborts for want of a block and for nothing else. -/
theorem fsWriteLoop_aborts (B inum numb : Int) (buf : Int → Int) :
    ∀ (fuel : Nat) (st : State) (w cur : Int) (e : Err),
      (fsWriteLoop B inum numb buf fuel st w cur).aborts = some e → e = .EDISKFULL := by
  intro fuel
  induction fuel with
  | zero =>
    intro st w cur e h
    simp only [fsWriteLoop] at h
    split_ifs at h <;> simp [Res.aborts] at h
  | succ fuel ih =>
    intro st w cur e h
    simp only [fsWriteLoop] at h
    split_ifs at h
    · cases hb : fsWriteBody B inum numb buf st w cur with
      | ok v s1 =>
        rw [hb] at h
        exact ih _ _ _ e h
      | fatal e1 =>
        rw [hb] at h
        simp only [Res.aborts, Option.some.injEq] at h
        subst h
        exact fsWriteBody_aborts B inum numb buf st w cur e1 (by rw [hb]; rfl)
      | timeout =>
        rw [hb] at h
        simp [Res.aborts] at h
    · simp [Res.aborts] at h

/-- C14: in `fsRead` and in `fsWrite`, a descriptor that resolves to a
negative inode number aborts the call with `EBADINUM`, and an inode whose
open-file-table lookup is negative aborts it with `EOFTFULL`; the call ends
with the state (cursors, sizes, blocks) and the buffer as they were, and the
outcome is the same whatever the cursors, sizes and blocks are.  When both
resolutions succeed, neither call aborts with either code. -/
theorem unresolved_fd_aborts (B : Int) (st : State) (fd numb : Int) (buf : Int → Int) :
    (bfsFdToInum st fd < 0 →
      fsRead B st fd numb buf = .fatal .EBADINUM ∧
      fsReadEnd B st fd numb buf = (st, buf) ∧
      fsWrite B st fd numb buf = .fatal .EBADINUM ∧
      fsWriteEnd B st fd numb buf = st) ∧
    (0 ≤ bfsFdToInum st fd → bfsFindOFTE st (bfsFdToInum st fd) < 0 →
      fsRead B st fd numb buf = .fatal .EOFTFULL ∧
      fsReadEnd B st fd numb buf = (st, buf) ∧
      fsWrite B st fd numb buf = .fatal .EOFTFULL ∧
      fsWriteEnd B st fd numb buf = st) ∧
    (¬ ValidFd st fd → ∀ st1 : State, st1.fdToInum = st.fdToInum →
      st1.findOFTE = st.findOFTE →
      fsRead B st1 fd numb buf = fsRead B st fd numb buf ∧
      fsWrite B st1 fd numb buf = fsWrite B st fd numb buf) ∧
    (ValidFd st fd →
      (fsRead B st fd numb buf).aborts ≠ some .EBADINUM ∧
      (fsRead B st fd numb buf).aborts ≠ some .EOFTFULL ∧
      (fsWrite B st fd numb buf).aborts ≠ some .EBADINUM ∧
      (fsWrite B st fd numb buf).aborts ≠ some .EOFTFULL) := by
  refine ⟨?_, ?_, ?_, ?_⟩
  · intro h
    simp only [fsRead, fsReadEnd, fsWrite, fsWriteEnd, if_pos h, and_self]
  · intro h1 h2
    simp only [fsRead, fsReadEnd, fsWrite, fsWriteEnd, if_neg (not_lt.mpr h1), if_pos h2,
      and_self]
  · intro hfd st1 e1 e2
    unfold ValidFd at hfd
    by_cases h1 : bfsFdToInum st fd < 0
    · have h1' : bfsFdToInum st1 fd < 0 := by
        simp only [bfsFdToInum, e1] at h1 ⊢
        exact h1
      simp only [fsRead, fsWrite, if_pos h1, if_pos h1', and_self]
    · have h2 : bfsFindOFTE st (bfsFdToInum st fd) < 0 := by
        by_contra hc
        exact hfd ⟨by omega, by omega⟩
      have h1' : ¬ bfsFdToInum st1 fd < 0 := by
        simp only [bfsFdToInum, e1] at h1 ⊢
        exact h1
      have h2' : bfsFindOFTE st1 (bfsFdToInum st1 fd) < 0 := by
        simp only [bfsFdToInum, bfsFindOFTE, e1, e2] at h2 ⊢
        exact h2
      simp only [fsRead, fsWrite, if_neg h1, if_neg h1', if_pos h2, if_pos h2', and_self]
  · intro hfd
    obtain ⟨h1, h2⟩ := hfd
    refine ⟨?_, ?_, ?_, ?_⟩
    · simp only [fsRead, if_neg (not_lt.mpr h1), if_neg (not_lt.mpr h2), bfsRead]
      split_ifs <;> simp [Res.aborts]
    · simp only [fsRead, if_neg (not_lt.mpr h1), if_neg (not_lt.mpr h2), bfsRead]
      split_ifs <;> simp [Res.aborts]
    · intro h
      rw [fsWrite_eq_of_valid B st fd numb buf ⟨h1, h2⟩] at h
      cases hl : fsWriteLoop B (bfsFdToInum st fd) numb buf numb.toNat st 0 (fsTell st fd) with
      | ok v s1 => rw [hl] at h; simp [Res.andThen, Res.aborts] at h
      | timeout => rw [hl] at h; simp [Res.andThen, Res.aborts] at h
      | fatal e =>
        rw [hl] at h
        simp only [Res.andThen, Res.aborts, Option.some.injEq] at h
        have := fsWriteLoop_aborts B _ numb buf _ _ _ _ e (by rw [hl]; rfl)
        rw [this] at h
        cases h
    · intro h
      rw [fsWrite_eq_of_valid B st fd numb buf ⟨h1, h2⟩] at h
      cases hl : fsWriteLoop B (bfsFdToInum st fd) numb buf numb.toNat st 0 (fsTell st fd) with
      | ok v s1 => rw [hl] at h; simp [Res.andThen, Res.aborts] at h
      | timeout => rw [hl] at h; simp [Res.andThen, Res.aborts] at h
      | fatal e =>
        rw [hl] at h
        simp only [Res.andThen, Res.aborts, Option.some.injEq] at h
        have := fsWriteLoop_aborts B _ numb buf _ _ _ _ e (by rw [hl]; rfl)
        rw [this] at h
        cases h

theorem unresolved_fd_aborts_witness :
    bfsFdToInum st0 2 < 0 ∧
      fsRead 512 st0 2 10 bufZ = .fatal .EBADINUM ∧
      fsWrite 512 st0 2 10 bufA = .fatal .EBADINUM ∧
      fsWriteEnd 512 st0 2 10 bufA = st0 ∧
      0 ≤ bfsFdToInum st0 9 ∧ bfsFindOFTE st0 (bfsFdToInum st0 9) < 0 ∧
      fsRead 512 st0 9 10 bufZ = .fatal .EOFTFULL ∧
      fsWrite 512 st0 9 10 bufA = .fatal .EOFTFULL ∧
      ValidFd st0 5 ∧
      (fsWrite 512 st0 5 10 bufA).aborts ≠ some .EBADINUM ∧
      (fsWrite 512 st0 5 10 bufA).aborts ≠ some .EOFTFULL :=
  ⟨by decide,
    ((unresolved_fd_aborts 512 st0 2 10 bufZ).1 (by decide)).1,
    ((unresolved_fd_aborts 512 st0 2 10 bufA).1 (by decide)).2.2.1,
    ((unresolved_fd_aborts 512 st0 2 10 bufA).1 (by decide)).2.2.2,
    by decide, by decide,
    ((unresolved_fd_aborts 512 st0 9 10 bufZ).2.1 (by decide) (by decide)).1,
    ((unresolved_fd_aborts 512 st0 9 10 bufA).2.1 (by decide) (by decide)).2.2.1,
    by decide,
    ((unresolved_fd_aborts 512 st0 5 10 bufA).2.2.2 (by decide)).2.2.1,
    ((unresolved_fd_aborts 512 st0 5 10 bufA).2.2.2 (by decide)).2.2.2⟩

/-- C20: an `fsRead` that returns leaves the sizes, the block map, the free
list and every device block as they were, and every cursor but that of the
descriptor: the one thing it may change is the cursor of the descriptor. -/
theorem fsRead_read_only (B : Int) (st st1 : State) (fd numb r : Int) (buf buf1 : Int → Int)
    (h : fsRead B st fd numb buf = .ok (r, buf1) st1) :
    st1.size = st.size ∧ st1.fbnToDbn = st.fbnToDbn ∧ st1.disk = st.disk ∧
      st1.free = st.free ∧ st1.fdToInum = st.fdToInum ∧ st1.findOFTE = st.findOFTE ∧
      st1.readRet = st.readRet ∧
      ∀ i, i ≠ bfsFindOFTE st (bfsFdToInum st fd) → st1.g_oft i = st.g_oft i := by
  simp only [fsRead, bfsRead] at h
  split_ifs at h <;>
    (cases h
     refine ⟨rfl, rfl, rfl, rfl, rfl, rfl, rfl, fun i hi => ?_⟩
     first
       | rfl
       | simp only [bfsSetCursor, if_neg hi])

theorem fsRead_read_only_witness :
    fsRead 512 st1000 5 10 bufZ
        = .ok (512, (bfsRead 512 st1000 0 0 bufZ).2) (bfsSetCursor st1000 0 512) ∧
      (bfsSetCursor st1000 0 512).size = st1000.size ∧
      (bfsSetCursor st1000 0 512).fbnToDbn = st1000.fbnToDbn ∧
      (bfsSetCursor st1000 0 512).disk = st1000.disk :=
  ⟨rfl,
    (fsRead_read_only 512 st1000 (bfsSetCursor st1000 0 512) 5 10 512 bufZ
      (bfsRead 512 st1000 0 0 bufZ).2 rfl).1,
    (fsRead_read_only 512 st1000 (bfsSetCursor st1000 0 512) 5 10 512 bufZ
      (bfsRead 512 st1000 0 0 bufZ).2 rfl).2.1,
    (fsRead_read_only 512 st1000 (bfsSetCursor st1000 0 512) 5 10 512 bufZ
      (bfsRead 512 st1000 0 0 bufZ).2 rfl).2.2.1⟩

/-! ## Formatting -/

/-- C15: `fsFormat` runs the initialisation steps in the order super block,
inodes, directory, free list, open-file table, each on the disk image the one
before left; it returns 0 exactly when all five were run and each returned 0;
every step run before the last one run returned 0, and when the last one run
returned a non-zero code `fsFormat` aborts with exactly that code, so that no
step after the first failing one is run.  (When the disk image cannot be
created it aborts with `EDISKCREATE` before any step.) -/
theorem fsFormat_steps {W : Type} (fpNull : Bool) (init : Step → W → Int × W) (w : W) :
    (∃ k, (fsFormat fpNull init w).ran.map Prod.fst = formatOrder.take k) ∧
    ((fsFormat fpNull init w).exit = .ret 0 ↔
      ((fsFormat fpNull init w).ran.map Prod.fst = formatOrder ∧
        ∀ p ∈ (fsFormat fpNull init w).ran, p.2 = 0)) ∧
    (∀ p ∈ (fsFormat fpNull init w).ran.dropLast, p.2 = 0) ∧
    (∀ p, (fsFormat fpNull init w).ran.getLast? = some p → p.2 ≠ 0 →
      (fsFormat fpNull init w).exit = .fatal (.code p.2)) ∧
    (fpNull = true →
      (fsFormat fpNull init w).exit = .fatal .EDISKCREATE ∧
        (fsFormat fpNull init w).ran = [] ∧ (fsFormat fpNull init w).world = w) ∧
    (fpNull = false →
      (fsFormat fpNull init w).ran = (runSteps init formatOrder w).1 ∧
        (fsFormat fpNull init w).world = (runSteps init formatOrder w).2) := by
  cases fpNull with
  | true =>
    refine ⟨⟨0, by simp [fsFormat]⟩, by simp [fsFormat, formatOrder], by simp [fsFormat],
      by simp [fsFormat], fun _ => by simp [fsFormat], fun h => by cases h⟩
  | false =>
    simp only [fsFormat, runSteps, formatOrder]
    by_cases h1 : (init .super w).1 = 0
    · by_cases h2 : (init .inodes (init .super w).2).1 = 0
      · by_cases h3 : (init .dir (init .inodes (init .super w).2).2).1 = 0
        · by_cases h4 : (init .freeList (init .dir (init .inodes (init .super w).2).2).2).1 = 0
          · by_cases h5 : (init .oft (init .freeList (init .dir
                (init .inodes (init .super w).2).2).2).2).1 = 0
            · refine ⟨⟨5, ?_⟩, ?_, ?_, ?_, ?_, ?_⟩ <;> simp [h1, h2, h3, h4, h5]
            · refine ⟨⟨5, ?_⟩, ?_, ?_, ?_, ?_, ?_⟩ <;> simp [h1, h2, h3, h4, h5]
          · refine ⟨⟨4, ?_⟩, ?_, ?_, ?_, ?_, ?_⟩ <;> simp [h1, h2, h3, h4]
        · refine ⟨⟨3, ?_⟩, ?_, ?_, ?_, ?_, ?_⟩ <;> simp [h1, h2, h3]
      · refine ⟨⟨2, ?_⟩, ?_, ?_, ?_, ?_, ?_⟩ <;> simp [h1, h2]
    · refine ⟨⟨1, ?_⟩, ?_, ?_, ?_, ?_, ?_⟩ <;> simp [h1]


theorem fsFormat_steps_witness :
    (false = false) ∧
      (fsFormat false initDirFails 0).ran = [(.super, 0), (.inodes, 0), (.dir, 7)] ∧
      (fsFormat false initDirFails 0).exit = .fatal (.code 7) ∧
      (fsFormat false initDirFails 0).world = 3 ∧
      (fsFormat false initOk 0).exit = .ret 0 :=
  ⟨rfl,
    ((fsFormat_steps false initDirFails 0).2.2.2.2.2 rfl).1.trans (by decide),
    (fsFormat_steps false initDirFails 0).2.2.2.1 (.dir, 7) (by decide) (by decide),
    ((fsFormat_steps false initDirFails 0).2.2.2.2.2 rfl).2.trans (by decide),
    (fsFormat_steps false initOk 0).2.1.mpr ⟨by decide, by decide⟩⟩

/-! ## Writing: the loop ends -/

theorem chunkSeq_of_ge (B numb : Int) (fuel : Nat) (w cur : Int) (h : ¬ w < numb) :
    chunkSeq B numb fuel w cur = [] := by
  cases fuel <;> simp only [chunkSeq, if_neg h]

/-- The number of chunks of `chunkSeq`, given passes enough for the bytes
owed. -/
theorem chunkSeq_length (B numb : Int) (hB : 0 < B) :
    ∀ (fuel : Nat) (w cur : Int), w ≤ numb → numb - w ≤ fuel →
      ((chunkSeq B numb fuel w cur).length : Int) = passCount B cur (numb - w) := by
  intro fuel
  induction fuel with
  | zero =>
    intro w cur hwn hfuel
    have hw : ¬ w < numb := by omega
    rw [chunkSeq_of_ge _ _ _ _ _ hw]
    simp only [passCount, if_neg (by omega : ¬ 0 < numb - w)]
    rfl
  | succ fuel ih =>
    intro w cur hwn hfuel
    by_cases hw : w < numb
    · have hm0 := Int.emod_nonneg cur (ne_of_gt hB)
      have hm1 := Int.emod_lt_of_pos cur hB
      have hp := chunkLen_pos B numb w cur hB hw
      have hr := chunkLen_le_right B numb w cur
      have hl := chunkLen_le_left B numb w cur
      simp only [chunkSeq, if_pos hw, List.length_cons]
      push_cast
      rw [ih (w + chunkLen B numb w cur) (cur + chunkLen B numb w cur) (by omega)
        (by push_cast at hfuel; omega)]
      simp only [passCount, if_pos (by omega : 0 < numb - w)]
      by_cases hlast : numb - w ≤ B - cur % B
      · have ht : chunkLen B numb w cur = numb - w := by
          unfold chunkLen
          exact min_eq_right hlast
        rw [ht, if_neg (by omega)]
        have := (Int.ediv_emod_unique (a := cur % B + (numb - w) + B - 1)
          (r := cur % B + (numb - w) - 1) (q := 1) hB).mpr ⟨by omega, by omega, by omega⟩
        rw [this.1]
        rfl
      · have ht : chunkLen B numb w cur = B - cur % B := by
          unfold chunkLen
          exact min_eq_left (by omega)
        rw [ht, if_pos (by omega)]
        have hz : (cur + (B - cur % B)) % B = 0 := by
          have he := Int.emod_add_ediv cur B
          exact ((Int.ediv_emod_unique (a := cur + (B - cur % B)) (r := 0)
            (q := cur / B + 1) hB).mpr ⟨by rw [mul_add]; omega, le_refl 0, hB⟩).2
        rw [hz]
        have e : cur % B + (numb - w) + B - 1
            = (0 + (numb - (w + (B - cur % B))) + B - 1) + 1 * B := by omega
        rw [e, Int.add_mul_ediv_right _ _ (ne_of_gt hB)]
    · have hw' : ¬ 0 < numb - w := by omega
      rw [chunkSeq_of_ge _ _ _ _ _ hw]
      simp only [passCount, if_neg hw']
      rfl

/-- The chunks the loop issues are the first chunks of `chunkSeq`, whether or
not a block can be had for every one of them. -/
theorem fsWriteChunks_initial (B inum numb : Int) (buf : Int → Int)
    (hB : 0 < B) (hB32 : B ≤ 2147483647) (hn32 : numb ≤ 2147483647) :
    ∀ (fuel : Nat) (st : State) (w cur : Int), 0 ≤ w → w ≤ numb → 0 ≤ cur →
      cur + (numb - w) ≤ 2147483647 →
      ∃ rest, chunkSeq B numb fuel w cur
        = fsWriteChunks B inum numb buf fuel st w cur ++ rest := by
  intro fuel
  induction fuel with
  | zero => intros; exact ⟨[], rfl⟩
  | succ fuel ih =>
    intro st w cur hw0 hwn hc hend
    by_cases hw : w < numb
    · simp only [fsWriteChunks, chunkSeq, if_pos hw,
        fsWriteBody_eq B inum numb buf st w cur hB hB32 hn32 hw0 hw hc hend]
      by_cases hd : (ensureBlock st inum (cur / B)).1 < 0
      · simp only [if_pos hd]
        exact ⟨_, rfl⟩
      · simp only [if_neg hd]
        have hp := chunkLen_pos B _ w cur hB hw
        have hr := chunkLen_le_right B numb w cur
        obtain ⟨rest, hrest⟩ := ih (rmw B buf (ensureBlock st inum (cur / B)).2
          (ensureBlock st inum (cur / B)).1 (cur % B) w (chunkLen B numb w cur))
          (w + chunkLen B numb w cur) (cur + chunkLen B numb w cur)
          (by omega) (by omega) (by omega) (by omega)
        exact ⟨rest, by rw [hrest]; rfl⟩
    · simp only [fsWriteChunks, chunkSeq, if_neg hw]
      exact ⟨[], rfl⟩

theorem fsWriteChunks_of_ge (B inum numb : Int) (buf : Int → Int) (fuel : Nat) (st : State)
    (w cur : Int) (h : ¬ w < numb) :
    fsWriteChunks B inum numb buf fuel st w cur = [] := by
  cases fuel <;> simp only [fsWriteChunks, if_neg h]

theorem passCount_nonneg (B c n : Int) (hB : 0 < B) : 0 ≤ passCount B c n := by
  unfold passCount
  split
  · have hm0 := Int.emod_nonneg c (ne_of_gt hB)
    exact Int.ediv_nonneg (by omega) (le_of_lt hB)
  · exact le_refl 0

/-- C19: for a block size `B > 0`, a cursor `c ≥ 0` and any count `n` (`i32`s,
with `c + n` an `i32` when `n > 0`), the loop of `fsWrite` ends within `n`
passes; in every pass `0 ≤ offset < B` and `1 ≤ toWrite ≤ B - offset`, so the
copy stays inside the block buffer, and the bytes come from inside `[0, n)`
of the caller's buffer; the loop makes `((c mod B) + n + B - 1) / B` passes
for `n > 0` when no pass aborts (fewer when a block cannot be had), and none
for `n ≤ 0`. -/
theorem fsWrite_loop_terminates (B : Int) (st : State) (fd n : Int) (buf : Int → Int)
    (hB : 0 < B) (hB32 : B ≤ 2147483647) (hc : 0 ≤ fsTell st fd)
    (hend : 0 < n → fsTell st fd + n ≤ 2147483647) :
    fsWrite B st fd n buf ≠ .timeout ∧
    (∀ ch ∈ fsWriteTrace B st fd n buf,
      0 ≤ ch.offset ∧ ch.offset < B ∧ 1 ≤ ch.toWrite ∧ ch.toWrite ≤ B - ch.offset ∧
      0 ≤ ch.src ∧ ch.src + ch.toWrite ≤ n) ∧
    ((fsWriteTrace B st fd n buf).length : Int) ≤ passCount B (fsTell st fd) n ∧
    ((fsWrite B st fd n buf).aborts = none →
      ((fsWriteTrace B st fd n buf).length : Int) = passCount B (fsTell st fd) n) ∧
    (n ≤ 0 → fsWriteTrace B st fd n buf = []) := by
  by_cases hfd : ValidFd st fd
  · have htr : fsWriteTrace B st fd n buf
        = fsWriteChunks B (bfsFdToInum st fd) n buf n.toNat st 0 (fsTell st fd) := by
      simp only [fsWriteTrace, if_neg (not_lt.mpr hfd.1), if_neg (not_lt.mpr hfd.2), fsTell]
    rw [htr, fsWrite_eq_of_valid B st fd n buf hfd]
    by_cases hn : 0 < n
    · have hend' := hend hn
      obtain ⟨rest, hrest⟩ := fsWriteChunks_initial B (bfsFdToInum st fd) n buf hB hB32
        (by omega) n.toNat st 0 (fsTell st fd) (le_refl 0) (le_of_lt hn) hc (by omega)
      have hfuel : n - 0 ≤ (n.toNat : Int) := by
        rw [Int.toNat_of_nonneg (le_of_lt hn)]; omega
      have hlen := chunkSeq_length B n hB n.toNat 0 (fsTell st fd) (le_of_lt hn) hfuel
      rw [sub_zero] at hlen
      obtain ⟨i1, -, -, -, -, -⟩ := chunkSeq_spec B n hB n.toNat 0 (fsTell st fd)
        (le_of_lt hn) hfuel
      refine ⟨?_, ?_, ?_, ?_, fun h => absurd hn (not_lt.mpr h)⟩
      · intro h
        by_cases hfull : (fsWriteLoop B (bfsFdToInum st fd) n buf n.toNat st 0
            (fsTell st fd)).aborts = some .EDISKFULL
        · revert h hfull
          cases fsWriteLoop B (bfsFdToInum st fd) n buf n.toNat st 0 (fsTell st fd) <;>
            simp [Res.andThen, Res.aborts]
        · obtain ⟨s1, hl, -⟩ := fsWriteLoop_ok B (bfsFdToInum st fd) n buf hB hB32 (by omega)
            n.toNat st 0 (fsTell st fd) (le_refl 0) (le_of_lt hn) hc (by omega) hfuel hfull
          rw [hl] at h
          simp [Res.andThen] at h
      · intro ch hch
        have hmem : ch ∈ chunkSeq B n n.toNat 0 (fsTell st fd) := by
          rw [hrest]
          exact List.mem_append_left _ hch
        obtain ⟨a1, a2, a3, a4, a5, a6, a7, a8⟩ := i1 ch hmem
        have hm0 := Int.emod_nonneg ch.cursor (ne_of_gt hB)
        have hm1 := Int.emod_lt_of_pos ch.cursor hB
        exact ⟨by omega, by omega, a5, by omega, by omega, by omega⟩
      · rw [← hlen, hrest, List.length_append]
        push_cast
        omega
      · intro hab
        have hfull : (fsWriteLoop B (bfsFdToInum st fd) n buf n.toNat st 0
            (fsTell st fd)).aborts ≠ some .EDISKFULL := by
          intro h
          revert hab h
          cases fsWriteLoop B (bfsFdToInum st fd) n buf n.toNat st 0 (fsTell st fd) <;>
            simp [Res.andThen, Res.aborts]
        rw [fsWriteChunks_eq B (bfsFdToInum st fd) n buf hB hB32 (by omega) n.toNat st 0
          (fsTell st fd) (le_refl 0) (le_of_lt hn) hc (by omega) hfull]
        exact hlen
    · have hnil := fsWriteChunks_of_ge B (bfsFdToInum st fd) n buf n.toNat st 0 (fsTell st fd)
        (by omega)
      rw [hnil, fsWriteLoop_of_ge _ _ _ _ _ _ _ _ (by omega)]
      simp only [passCount, if_neg hn]
      refine ⟨by simp [Res.andThen], by simp, by simp, fun _ => by simp, fun _ => by simp⟩
  · have htr : fsWriteTrace B st fd n buf = [] := by
      unfold ValidFd at hfd
      simp only [fsWriteTrace]
      split_ifs <;> first | rfl | (exfalso; apply hfd; constructor <;> omega)
    have hab : (fsWrite B st fd n buf).aborts ≠ none ∧ fsWrite B st fd n buf ≠ .timeout := by
      unfold ValidFd at hfd
      simp only [fsWrite]
      split_ifs <;> first
        | (exfalso; apply hfd; constructor <;> omega)
        | (constructor <;> simp [Res.aborts])
    rw [htr]
    refine ⟨hab.2, by simp, ?_, fun h => absurd h hab.1, fun _ => rfl⟩
    simp only [List.length_nil, Nat.cast_zero]
    exact passCount_nonneg B _ n hB

theorem fsWrite_loop_terminates_witness :
    (0 : Int) < 512 ∧ 0 ≤ fsTell st400 5 ∧ fsTell st400 5 + 600 ≤ 2147483647 ∧
      fsWrite 512 st400 5 600 bufA ≠ .timeout ∧
      (fsWrite 512 st400 5 600 bufA).aborts = none ∧
      ((fsWriteTrace 512 st400 5 600 bufA).length : Int) = passCount 512 (fsTell st400 5) 600 ∧
      passCount 512 (fsTell st400 5) 600 = 2 :=
  ⟨by decide, by decide, by decide,
    (fsWrite_loop_terminates 512 st400 5 600 bufA (by decide) (by decide) (by decide)
      (fun _ => by decide)).1,
    by decide,
    (fsWrite_loop_terminates 512 st400 5 600 bufA (by decide) (by decide) (by decide)
      (fun _ => by decide)).2.2.2.1 (by decide),
    by decide⟩

end BFS
